import Mathlib

/-!
Verification development for the `ait` ontology introspection engine
(`src/ait/web.py`): namespace classification, class-hierarchy construction
with ancestor promotion, code-list detection/resolution, and property
domain/range resolution.

The RDF store (pyoxigraph) is modelled as a list of triples over a term
type distinguishing IRIs, literals and blank nodes; each fixed SPARQL
query issued by the engine is translated into an explicit Lean function
over that graph, and the Python post-processing is translated function by
function.  Python's stable `sort`/`sorted` is modelled by
`List.insertionSort` (stable sorting by a total preorder is unique, so any
stable sort is a faithful model).  Python string comparison and
`str.lower` are modelled by code-point comparison and ASCII lowercasing on
the underlying character lists (all tested inputs are ASCII).
-/

/-! ### String helpers (code-point order, ASCII lower, prefix tests) -/

/-- ASCII lower-casing of one character (models `str.lower` on ASCII data). -/
def lowerChar (c : Char) : Char :=
  if 'A' ≤ c ∧ c ≤ 'Z' then Char.ofNat (c.toNat + 32) else c

/-- Lower-case a string (models Python `str.lower` on ASCII data). -/
def lowerStr (s : String) : String :=
  String.mk (s.data.map lowerChar)

/-- Code-point lexicographic `≤` on character lists (Python string `<=`). -/
def charListLe : List Char → List Char → Bool
  | [], _ => true
  | _ :: _, [] => false
  | a :: as, b :: bs =>
    if a.toNat < b.toNat then true
    else if b.toNat < a.toNat then false
    else charListLe as bs

/-- Code-point lexicographic `≤` on strings. -/
def strLeB (a b : String) : Bool := charListLe a.data b.data

/-- `a.startswith(pre)` (Python) on strings, via the character lists. -/
def startsWithB (s pre : String) : Bool := pre.data.isPrefixOf s.data

/-- Python's `needle in hay` substring test. -/
def containsSubB (hay needle : String) : Bool :=
  (List.range (hay.data.length + 1)).any (fun i => needle.data.isPrefixOf (hay.data.drop i))

/-- Characters strictly after the last `#` or `/` (the whole string if none).
Models `_extract_local_name`: `uri[max(rfind('#'), rfind('/')) + 1:]`. -/
def extract_local_name (uri : String) : String :=
  String.mk (uri.data.foldl (fun acc c => if c = '#' ∨ c = '/' then [] else acc ++ [c]) [])

/-- Prefix of `l` up to and including the last occurrence of `c`, if any. -/
def upToLastIncl (c : Char) : List Char → Option (List Char)
  | [] => none
  | a :: as =>
    match upToLastIncl c as with
    | some r => some (a :: r)
    | none => if a = c then some [a] else none

/-- Models `_extract_namespace`: everything up to and including the last `#`,
failing that the last `/`, failing that the whole URI. -/
def extract_namespace (uri : String) : String :=
  match upToLastIncl '#' uri.data with
  | some r => String.mk r
  | none =>
    match upToLastIncl '/' uri.data with
    | some r => String.mk r
    | none => uri

/-- Python `a or b` for an optional string `a` (both `None` and `""` fall through). -/
def pyOr (a : Option String) (b : String) : String :=
  match a with
  | some s => if s = "" then b else s
  | none => b

/-! ### RDF graph model -/

/-- An RDF term: IRI, literal (lexical value), or blank node. -/
inductive Term where
  | iri (v : String)
  | lit (v : String)
  | blank (v : String)
deriving DecidableEq, Repr

/-- How `Store.query` renders a term into the row dictionaries:
IRIs and literals by their value, blank nodes with a `_:` guard. -/
def Term.render : Term → String
  | .iri v => v
  | .lit v => v
  | .blank v => "_:" ++ v

def Term.isIRI : Term → Bool
  | .iri _ => true
  | _ => false

def Term.isBlankNode : Term → Bool
  | .blank _ => true
  | _ => false

structure Triple where
  subj : Term
  pred : Term
  obj : Term
deriving DecidableEq, Repr

/-- A named graph, as the list of its triples. -/
abbrev Graph := List Triple

/-- Objects of all triples `(s, pred, ?o)` in graph order. -/
def objectsOf (g : Graph) (pred : String) (s : Term) : List Term :=
  (g.filter (fun t => t.subj = s ∧ t.pred = Term.iri pred)).map (·.obj)

/-- Subjects of all triples `(?s, pred, o)` in graph order. -/
def subjectsOf (g : Graph) (pred : String) (o : Term) : List Term :=
  (g.filter (fun t => t.pred = Term.iri pred ∧ t.obj = o)).map (·.subj)

/-- SPARQL `OPTIONAL` over a one-variable pattern: no match leaves the
variable unbound, otherwise one row per match. -/
def optIter (l : List α) : List (Option α) :=
  match l with
  | [] => [none]
  | l => l.map some

/-- Keep the first occurrence of each element (SELECT DISTINCT / Python set
iteration order as realised by insertion order). -/
def dedupFirst [DecidableEq α] (l : List α) : List α :=
  l.foldl (fun acc a => if a ∈ acc then acc else acc ++ [a]) []

/-! ### Vocabulary constants (`web.py` module constants) -/

def OWL_CLASS : String := "http://www.w3.org/2002/07/owl#Class"
def OWL_OBJECT_PROPERTY : String := "http://www.w3.org/2002/07/owl#ObjectProperty"
def OWL_DATATYPE_PROPERTY : String := "http://www.w3.org/2002/07/owl#DatatypeProperty"
def OWL_ANNOTATION_PROPERTY : String := "http://www.w3.org/2002/07/owl#AnnotationProperty"
def OWL_ONE_OF : String := "http://www.w3.org/2002/07/owl#oneOf"
def OWL_EQUIVALENT_CLASS : String := "http://www.w3.org/2002/07/owl#equivalentClass"
def OWL_DEPRECATED : String := "http://www.w3.org/2002/07/owl#deprecated"
def RDFS_CLASS : String := "http://www.w3.org/2000/01/rdf-schema#Class"
def RDFS_LABEL : String := "http://www.w3.org/2000/01/rdf-schema#label"
def RDFS_SUBCLASS_OF : String := "http://www.w3.org/2000/01/rdf-schema#subClassOf"
def RDFS_DOMAIN : String := "http://www.w3.org/2000/01/rdf-schema#domain"
def RDFS_RANGE : String := "http://www.w3.org/2000/01/rdf-schema#range"
def RDF_TYPE : String := "http://www.w3.org/1999/02/22-rdf-syntax-ns#type"
def RDF_FIRST : String := "http://www.w3.org/1999/02/22-rdf-syntax-ns#first"
def RDF_REST : String := "http://www.w3.org/1999/02/22-rdf-syntax-ns#rest"
def SKOS_IN_SCHEME : String := "http://www.w3.org/2004/02/skos/core#inScheme"
def SKOS_MEMBER : String := "http://www.w3.org/2004/02/skos/core#member"
def SKOS_PREF_LABEL : String := "http://www.w3.org/2004/02/skos/core#prefLabel"
def SKOS_NOTATION : String := "http://www.w3.org/2004/02/skos/core#notation"
def SKOS_DEFINITION : String := "http://www.w3.org/2004/02/skos/core#definition"
def PREFIX_IRI : String := "http://data.bioontology.org/metadata/prefixIRI"

/-- Well-known URIs excluded from the tree (`EXCLUDED_CLASSES` in `web.py`). -/
def EXCLUDED_CLASSES : List String :=
  [ "http://www.w3.org/2002/07/owl#Thing",
    "http://www.w3.org/2002/07/owl#Nothing",
    "http://www.w3.org/2000/01/rdf-schema#Resource",
    "http://www.w3.org/2000/01/rdf-schema#Class",
    "http://www.w3.org/2002/07/owl#Class" ]

/-! ### Namespace classifier (`_detect_internal_namespaces`) -/

/-- Python `ns.rstrip("/")` on the character list. -/
def rstripSlashes (s : String) : String :=
  String.mk ((s.data.reverse.dropWhile (fun c => c = '/')).reverse)

/-- Python `s.split("/")` for the single character `/`. -/
def splitOnSlash (s : String) : List String :=
  (s.data.foldr
    (fun ch acc =>
      match acc with
      | [] => [[ch]]
      | cur :: rest => if ch = '/' then [] :: cur :: rest else (ch :: cur) :: rest)
    [[]]).map String.mk

/-- `"/".join(parts[:i]) + "/"`. -/
def joinSlashPre (parts : List String) (i : Nat) : String :=
  String.mk (((((parts.take i).map (·.data)).intersperse ['/']).flatten) ++ ['/'])

/-- Number of occurrences of `a` in `l` (`collections.Counter` lookups). -/
def countOccs [DecidableEq α] (a : α) (l : List α) : Nat :=
  (l.filter (fun x => x = a)).length

/-- Candidate base prefixes of one major namespace (`range(3, len(parts))`). -/
def basePrefixCandidates (ns : String) : List String :=
  let parts := splitOnSlash (rstripSlashes ns)
  ((List.range parts.length).filter (fun i => 3 ≤ i)).map (joinSlashPre parts)

/-- Models `_detect_internal_namespaces` (threshold fixed at the default
`0.05`; `int(total * 0.05)` is modelled as `total * 5 / 100` — the float
rounding of the original is immaterial to the theorems below, which either
quantify over the internal-namespace set or use inputs where the value is
not consulted). -/
def detect_internal_namespaces (classUris : List String) : List String :=
  if classUris.isEmpty then []
  else
    let allNamespaces := classUris.map extract_namespace
    let total := classUris.length
    let minCount := max 3 (total * 5 / 100)
    let major := (dedupFirst allNamespaces).filter (fun ns => minCount ≤ countOccs ns allNamespaces)
    let basePrefixes := dedupFirst (major.flatMap (fun ns =>
      (basePrefixCandidates ns).filter (fun pre =>
        2 ≤ (major.filter (fun mns => startsWithB mns pre)).length)))
    dedupFirst (major ++ (dedupFirst allNamespaces).filter (fun ns =>
      basePrefixes.any (fun base => startsWithB ns base)))

/-! ### Hierarchy builder (`get_class_hierarchy`, spec `buildHierarchy`) -/

/-- One row of the bulk hierarchy query
`SELECT DISTINCT ?class ?label ?prefixIRI ?parent ?deprecated`. -/
structure HRow where
  classU : Option String
  labelU : Option String
  prefixIriU : Option String
  parentU : Option String
  deprecatedU : Option String
deriving DecidableEq, Repr

/-- The bulk hierarchy query: classes declared `owl:Class` or `rdfs:Class`
(UNION), with optional label, prefixIRI, `owl:deprecated`, and optional
`rdfs:subClassOf` parent filtered to IRIs. -/
def hierarchyQuery (g : Graph) : List HRow :=
  let classes := dedupFirst
    ((g.filter (fun t => t.pred = Term.iri RDF_TYPE ∧
        (t.obj = Term.iri OWL_CLASS ∨ t.obj = Term.iri RDFS_CLASS))).map (·.subj))
  dedupFirst (classes.flatMap (fun c =>
    (optIter (objectsOf g RDFS_LABEL c)).flatMap (fun lab =>
    (optIter (objectsOf g PREFIX_IRI c)).flatMap (fun pfx =>
    (optIter (objectsOf g OWL_DEPRECATED c)).flatMap (fun dep =>
    (optIter ((objectsOf g RDFS_SUBCLASS_OF c).filter Term.isIRI)).map (fun par =>
      { classU := some c.render, labelU := lab.map Term.render,
        prefixIriU := pfx.map Term.render, parentU := par.map Term.render,
        deprecatedU := dep.map Term.render }))))))

/-- First pass of `get_class_hierarchy`: discard rows whose class is
missing/empty, a blank node, or an excluded root. -/
def class_data (rows : List HRow) : List HRow :=
  rows.filter (fun r =>
    match r.classU with
    | some c => ¬(c = "" ∨ startsWithB c "_:" = true ∨ c ∈ EXCLUDED_CLASSES)
    | none => false)

structure HierarchyNode where
  uri : String
  label : String
  prefixIri : Option String
  entityType : String
  parentUris : List String
  isExternal : Bool
  isDeprecated : Bool
deriving DecidableEq, Repr

/-- `is_external` in `get_class_hierarchy`: namespace not internal. -/
def isExternalNs (internal : List String) (uri : String) : Bool :=
  decide (extract_namespace uri ∉ internal)

/-- `str(deprecated_val).lower() == "true" if deprecated_val else False`. -/
def rowDeprecated (r : HRow) : Bool :=
  match r.deprecatedU with
  | some v => ¬(v = "") ∧ lowerStr v = "true"
  | none => false

structure BuildState where
  nodes : List HierarchyNode
  childrenMap : List (String × List String)
deriving DecidableEq, Repr

def mkHierarchyNode (internal : List String) (c : String) (r : HRow) : HierarchyNode :=
  { uri := c, label := pyOr r.labelU (extract_local_name c),
    prefixIri := r.prefixIriU, entityType := "Class", parentUris := [],
    isExternal := isExternalNs internal c, isDeprecated := rowDeprecated r }

/-- Append `p` to the `parentUris` of every node with URI `c` (absent-only). -/
def addParent (nodes : List HierarchyNode) (c p : String) : List HierarchyNode :=
  nodes.map (fun n =>
    if n.uri = c then
      if p ∈ n.parentUris then n else { n with parentUris := n.parentUris ++ [p] }
    else n)

/-- Record `c` as a child of `p` in the parent → children map (absent-only). -/
def addChild (cm : List (String × List String)) (p c : String) :
    List (String × List String) :=
  if cm.any (fun e => e.1 = p) then
    cm.map (fun e => if e.1 = p then (e.1, if c ∈ e.2 then e.2 else e.2 ++ [c]) else e)
  else cm ++ [(p, [c])]

/-- Second pass of `get_class_hierarchy`: build the node map and the
parent → children map from one row. -/
def processRow (internal : List String) (st : BuildState) (r : HRow) : BuildState :=
  match r.classU with
  | none => st
  | some c =>
    if c = "" then st
    else
      let nodes1 := if st.nodes.any (fun n => n.uri = c) then st.nodes
        else st.nodes ++ [mkHierarchyNode internal c r]
      match r.parentU with
      | some p =>
        if ¬(p = "") ∧ p ∉ EXCLUDED_CLASSES ∧ startsWithB p "_:" = false then
          { nodes := addParent nodes1 c p, childrenMap := addChild st.childrenMap p c }
        else { nodes := nodes1, childrenMap := st.childrenMap }
      | none => { nodes := nodes1, childrenMap := st.childrenMap }

def hierarchyState (rows : List HRow) (internal : List String) : BuildState :=
  (class_data rows).foldl (processRow internal) ⟨[], []⟩

/-- `children_map.get(uri, [])`. -/
def childrenOf (cm : List (String × List String)) (uri : String) : List String :=
  (cm.lookup uri).getD []

/-- Inner loop of `has_internal_descendant` over the children of the
current node, threading the shared visited set. -/
def hidFold (keys : List String) (isExt : String → Bool)
    (go : String → List String → Bool × List String) :
    List String → List String → Bool × List String
  | [], v => (false, v)
  | c :: cs, v =>
    if c ∈ keys then
      if isExt c = false then (true, v)
      else
        match go c v with
        | (true, v') => (true, v')
        | (false, v') => hidFold keys isExt go cs v'
    else hidFold keys isExt go cs v

/-- The visited-set-guarded DFS of `has_internal_descendant`; the fuel is
only a Lean totality device — `#keys + 1` is always enough (each recursive
call visits a fresh node key), so the 0-fuel branch is never taken. -/
def hidGo (cm : List (String × List String)) (keys : List String)
    (isExt : String → Bool) : Nat → String → List String → Bool × List String
  | 0, _, v => (false, v)
  | fuel + 1, uri, v =>
    if uri ∈ v then (false, v)
    else hidFold keys isExt (hidGo cm keys isExt fuel) (childrenOf cm uri) (uri :: v)

/-- `has_internal_descendant(uri, set())` over the built children map. -/
def has_internal_descendant (cm : List (String × List String))
    (keys : List String) (isExt : String → Bool) (uri : String) : Bool :=
  (hidGo cm keys isExt (keys.length + 1) uri []).1

/-- The ancestor-promotion pass: an external node with an internal
descendant is reclassified internal. -/
def promoteNodes (st : BuildState) (internal : List String) : List HierarchyNode :=
  st.nodes.map (fun n =>
    if n.isExternal then
      if has_internal_descendant st.childrenMap (st.nodes.map (·.uri))
          (isExternalNs internal) n.uri then
        { n with isExternal := false }
      else n
    else n)

/-- Sort key relation: lowercased label (code-point order). -/
def nodeLabelRel (a b : HierarchyNode) : Prop :=
  strLeB (lowerStr a.label) (lowerStr b.label) = true

instance : DecidableRel nodeLabelRel := fun a b => by
  unfold nodeLabelRel; infer_instance

/-- Everything after the bulk query in `get_class_hierarchy`: build,
promote, filter deprecated, sort by lowercased label. -/
def processRows (rows : List HRow) (internal : List String)
    (showDeprecated : Bool) : List HierarchyNode :=
  let promoted := promoteNodes (hierarchyState rows internal) internal
  let filtered := if showDeprecated then promoted
    else promoted.filter (fun n => !n.isDeprecated)
  List.insertionSort nodeLabelRel filtered

/-- Stored per-ontology configuration (`OntologyConfig`). -/
structure OntologyConfig where
  selectedNamespaces : List String
  displayNameMode : String
  showDeprecated : Bool
deriving DecidableEq, Repr

/-- The internal-namespace set used by `get_class_hierarchy`: the stored
selection if non-empty, else auto-detection over the distinct class URIs. -/
def internalNamespacesFor (g : Graph) (cfg : OntologyConfig) : List String :=
  if cfg.selectedNamespaces.isEmpty then
    detect_internal_namespaces
      (dedupFirst ((class_data (hierarchyQuery g)).filterMap (·.classU)))
  else cfg.selectedNamespaces

/-- `get_class_hierarchy` (the spec's `buildHierarchy`). -/
def get_class_hierarchy (g : Graph) (cfg : OntologyConfig) : List HierarchyNode :=
  processRows (hierarchyQuery g) (internalNamespacesFor g cfg) cfg.showDeprecated

/-- The children map `get_class_hierarchy` builds for graph `g`. -/
def childrenMapFor (g : Graph) (cfg : OntologyConfig) : List (String × List String) :=
  (hierarchyState (hierarchyQuery g) (internalNamespacesFor g cfg)).childrenMap

/-- Descendant reachability through the parent → children map. -/
inductive Reaches (cm : List (String × List String)) : String → String → Prop
  | direct {a b : String} : b ∈ childrenOf cm a → Reaches cm a b
  | step {a c b : String} : c ∈ childrenOf cm a → Reaches cm c b → Reaches cm a b

/-! ### Code-list resolver (`_detect_codelist_pattern`, `get_codelist_info`) -/

/-- One expansion step of the `rdf:rest*` reachability set. -/
def restStep (g : Graph) (acc : List Term) : List Term :=
  dedupFirst (acc ++ acc.flatMap (objectsOf g RDF_REST))

/-- Nodes reachable from `start` via `rdf:rest*` (path lengths are bounded
by the number of triples, so `|g|` expansion rounds reach the fixpoint). -/
def restStar (g : Graph) (start : Term) : List Term :=
  (List.range (g.length + 1)).foldl (fun acc _ => restStep g acc) [start]

/-- Bindings of `?member` in `<e> owl:oneOf/rdf:rest*/rdf:first ?member`. -/
def oneOfMembersFrom (g : Graph) (e : Term) : List Term :=
  (objectsOf g OWL_ONE_OF e).flatMap (fun l0 =>
    (restStar g l0).flatMap (objectsOf g RDF_FIRST))

/-- Bindings of `?member` in
`<e> owl:equivalentClass/owl:oneOf/rdf:rest*/rdf:first ?member`. -/
def equivOneOfMembersFrom (g : Graph) (e : Term) : List Term :=
  (objectsOf g OWL_EQUIVALENT_CLASS e).flatMap (fun c => oneOfMembersFrom g c)

/-- `COUNT(?member)` for `?member skos:inScheme <e>`. -/
def skosSchemeCount (g : Graph) (e : String) : Nat :=
  (subjectsOf g SKOS_IN_SCHEME (Term.iri e)).length

/-- `COUNT(?member)` for the direct `owl:oneOf` list pattern. -/
def owlOneOfCount (g : Graph) (e : String) : Nat :=
  (oneOfMembersFrom g (Term.iri e)).length

/-- `COUNT(?member)` for the `owl:equivalentClass`/`owl:oneOf` pattern. -/
def owlEquivOneOfCount (g : Graph) (e : String) : Nat :=
  (equivOneOfMembersFrom g (Term.iri e)).length

/-- `COUNT(?member)` for `<e> skos:member ?member`. -/
def skosCollectionCount (g : Graph) (e : String) : Nat :=
  (objectsOf g SKOS_MEMBER (Term.iri e)).length

/-- Models `_detect_codelist_pattern`: four count queries tried in a fixed
order, first non-zero count wins. -/
def detect_codelist_pattern (g : Graph) (e : String) : Option String :=
  if 0 < skosSchemeCount g e then some "skos_scheme"
  else if 0 < owlOneOfCount g e then some "owl_oneof"
  else if 0 < owlEquivOneOfCount g e then some "owl_equivalent_oneof"
  else if 0 < skosCollectionCount g e then some "skos_collection"
  else none

/-- One row of the scheme/collection member queries
`SELECT DISTINCT ?member ?label ?notation ?description` (plus the
`?rdfsLabel` binding used by the label fallback). -/
structure MemberRow where
  member : String
  plabel : Option String
  rlabel : Option String
  notationVal : Option String
  descr : Option String
deriving DecidableEq, Repr

/-- The four OPTIONAL blocks shared by the scheme and collection member
queries, applied to one member term. -/
def memberRowsFor (g : Graph) (m : Term) : List MemberRow :=
  (optIter (objectsOf g SKOS_PREF_LABEL m)).flatMap (fun pl =>
  (optIter (objectsOf g RDFS_LABEL m)).flatMap (fun rl =>
  (optIter (objectsOf g SKOS_NOTATION m)).flatMap (fun nt =>
  (optIter (objectsOf g SKOS_DEFINITION m)).map (fun d =>
    { member := m.render, plabel := pl.map Term.render, rlabel := rl.map Term.render,
      notationVal := nt.map Term.render, descr := d.map Term.render }))))

/-- SPARQL `ORDER BY ?notation ?label`: unbound sorts first, bound values
by code point; ties on the first key fall to the second. -/
def optStrLtB : Option String → Option String → Bool
  | none, none => false
  | none, some _ => true
  | some _, none => false
  | some a, some b => charListLe a.data b.data ∧ ¬(a = b)

def optStrLeB (a b : Option String) : Bool := optStrLtB a b ∨ a = b

def memberRowLe (a b : MemberRow) : Bool :=
  optStrLtB a.notationVal b.notationVal ∨
    (a.notationVal = b.notationVal ∧ optStrLeB a.plabel b.plabel = true)

def memberRowRel (a b : MemberRow) : Prop := memberRowLe a b = true

instance : DecidableRel memberRowRel := fun a b => by
  unfold memberRowRel; infer_instance

/-- `ORDER BY ?notation ?label LIMIT 500` over the distinct member rows of
the `skos:inScheme` member query. -/
def skosSchemeMemberRows (g : Graph) (e : String) : List MemberRow :=
  ((List.insertionSort memberRowRel
    (dedupFirst ((dedupFirst (subjectsOf g SKOS_IN_SCHEME (Term.iri e))).flatMap
      (memberRowsFor g)))).take 500)

/-- Likewise for the `skos:member` collection query. -/
def skosCollectionMemberRows (g : Graph) (e : String) : List MemberRow :=
  ((List.insertionSort memberRowRel
    (dedupFirst ((dedupFirst (objectsOf g SKOS_MEMBER (Term.iri e))).flatMap
      (memberRowsFor g)))).take 500)

structure CodeListMember where
  uri : String
  label : String
  notationVal : Option String
  descr : Option String
deriving DecidableEq, Repr

/-- The Python row loop shared by the scheme and collection branches:
`label = r.get("label") or r.get("rdfsLabel") or _extract_local_name(uri)`. -/
def membersOfRows (rows : List MemberRow) : List CodeListMember :=
  rows.filterMap (fun r =>
    if r.member = "" then none
    else some { uri := r.member,
                label := pyOr r.plabel (pyOr r.rlabel (extract_local_name r.member)),
                notationVal := r.notationVal, descr := r.descr })

/-- The `owl:oneOf` (or equivalent-class) member query: path members
filtered to IRIs, optional label, `DISTINCT`, `LIMIT 500`. -/
def oneOfMemberPairs (g : Graph) (ms : List Term) : List (String × Option String) :=
  ((dedupFirst ((dedupFirst ms).filter Term.isIRI |>.flatMap (fun m =>
    (optIter (objectsOf g RDFS_LABEL m)).map (fun l =>
      (m.render, l.map Term.render))))).take 500)

/-- The Python row loop of the two oneOf branches (`notation` is never set). -/
def membersOfOneOfPairs (pairs : List (String × Option String)) : List CodeListMember :=
  pairs.filterMap (fun p =>
    if p.1 = "" then none
    else some { uri := p.1, label := pyOr p.2 (extract_local_name p.1),
                notationVal := none, descr := none })

/-- The raw (pre-final-sort) member list of `get_codelist_info` for a
detected pattern. -/
def rawMembers (g : Graph) (e : String) (pattern : String) : List CodeListMember :=
  if pattern = "skos_scheme" then membersOfRows (skosSchemeMemberRows g e)
  else if pattern = "skos_collection" then membersOfRows (skosCollectionMemberRows g e)
  else if pattern = "owl_oneof" then
    membersOfOneOfPairs (oneOfMemberPairs g (oneOfMembersFrom g (Term.iri e)))
  else if pattern = "owl_equivalent_oneof" then
    membersOfOneOfPairs (oneOfMemberPairs g (equivOneOfMembersFrom g (Term.iri e)))
  else []

/-- The final `members.sort(key=lambda m: m.label.lower())`. -/
def memberLowerRel (a b : CodeListMember) : Prop :=
  strLeB (lowerStr a.label) (lowerStr b.label) = true

instance : DecidableRel memberLowerRel := fun a b => by
  unfold memberLowerRel; infer_instance

structure CodeListInfo where
  uri : String
  label : String
  pattern : String
  memberCount : Nat
  members : List CodeListMember
deriving DecidableEq, Repr

/-- Models `get_codelist_info` (the spec's `detectPattern` + `resolveMembers`
/ `getCodeList`): pattern detection, per-pattern member retrieval, final
stable sort by lowercased label. -/
def get_codelist_info (g : Graph) (e : String) : Option CodeListInfo :=
  match detect_codelist_pattern g e with
  | none => none
  | some pattern =>
    let entityLabel := ((objectsOf g RDFS_LABEL (Term.iri e)).map Term.render).head?
    let members := List.insertionSort memberLowerRel (rawMembers g e pattern)
    some { uri := e, label := pyOr entityLabel (extract_local_name e),
           pattern := pattern, memberCount := members.length, members := members }

/-! ### Property resolver (`_get_properties_for_class`, `get_class_properties`) -/

structure PropertyInfo where
  uri : String
  label : String
  propertyType : String
  domains : List (String × String)
  ranges : List (String × String)
deriving DecidableEq, Repr

/-- One row of the domain query
`SELECT DISTINCT ?prop ?propLabel ?propType ?range ?rangeLabel`. -/
structure DomRow where
  prop : String
  propLabel : Option String
  propType : Option String
  rangeU : Option String
  rangeLabel : Option String
deriving DecidableEq, Repr

/-- The nested `OPTIONAL { ?prop rdfs:range ?range . OPTIONAL { ?range
rdfs:label ?rangeLabel } }` block for one property term. -/
def rangeOptions (g : Graph) (p : Term) : List (Option String × Option String) :=
  match objectsOf g RDFS_RANGE p with
  | [] => [(none, none)]
  | rs => rs.flatMap (fun r =>
      (optIter (objectsOf g RDFS_LABEL r)).map (fun rl =>
        (some r.render, rl.map Term.render)))

/-- The `OPTIONAL { ?prop a ?propType . FILTER(?propType IN (...)) }` block. -/
def propTypeOptions (g : Graph) (p : Term) : List (Option String) :=
  optIter (((objectsOf g RDF_TYPE p).filter (fun ty =>
    ty = Term.iri OWL_OBJECT_PROPERTY ∨ ty = Term.iri OWL_DATATYPE_PROPERTY ∨
      ty = Term.iri OWL_ANNOTATION_PROPERTY)).map Term.render)

/-- Rows of the domain query of `_get_properties_for_class`. -/
def domainRows (g : Graph) (c : String) : List DomRow :=
  dedupFirst ((dedupFirst (subjectsOf g RDFS_DOMAIN (Term.iri c))).flatMap (fun p =>
    (optIter (objectsOf g RDFS_LABEL p)).flatMap (fun pl =>
    (propTypeOptions g p).flatMap (fun ty =>
    (rangeOptions g p).map (fun rg =>
      { prop := p.render, propLabel := pl.map Term.render, propType := ty,
        rangeU := rg.1, rangeLabel := rg.2 })))))

/-- `prop_type` from the (possibly missing) `?propType` binding; the Python
code uses substring membership on the binding, defaulting to
`ObjectProperty`. -/
def propTypeName (o : Option String) : String :=
  let s := o.getD ""
  if containsSubB s OWL_DATATYPE_PROPERTY then "DatatypeProperty"
  else if containsSubB s OWL_ANNOTATION_PROPERTY then "AnnotationProperty"
  else "ObjectProperty"

def mkPropInfo (c : String) (r : DomRow) : PropertyInfo :=
  { uri := r.prop, label := pyOr r.propLabel (extract_local_name r.prop),
    propertyType := propTypeName r.propType,
    domains := [(c, extract_local_name c)], ranges := [] }

/-- Append a (non-duplicate) range to every entry with URI `p`. -/
def addRange (props : List PropertyInfo) (p ru rl : String) : List PropertyInfo :=
  props.map (fun pi =>
    if pi.uri = p then
      if ru ∈ pi.ranges.map Prod.fst then pi
      else { pi with ranges := pi.ranges ++ [(ru, rl)] }
    else pi)

/-- The row loop of `_get_properties_for_class`. -/
def updProps (c : String) (props : List PropertyInfo) (r : DomRow) : List PropertyInfo :=
  if r.prop = "" then props
  else
    let props1 := if props.any (fun pi => pi.uri = r.prop) then props
      else props ++ [mkPropInfo c r]
    match r.rangeU with
    | some ru =>
      if ¬(ru = "") ∧ startsWithB ru "_:" = false then
        addRange props1 r.prop ru (pyOr r.rangeLabel (extract_local_name ru))
      else props1
    | none => props1

/-- Models `_resolve_blank_node_range`: the query follows
`rdfs:range → owl:oneOf → rdf:first` only (the head of the list), keeps
non-blank members, and resolves an optional label per member. -/
def resolve_blank_node_range (g : Graph) (p : String) : List (String × String) :=
  ((objectsOf g RDFS_RANGE (Term.iri p)).flatMap (fun r =>
    (objectsOf g OWL_ONE_OF r).flatMap (fun l =>
    ((objectsOf g RDF_FIRST l).filter (fun m => m.isBlankNode = false)).flatMap (fun m =>
    (optIter (objectsOf g RDFS_LABEL m)).map (fun ml =>
      (m.render, ml.map Term.render)))))).filterMap (fun pr =>
    if pr.1 = "" then none else some (pr.1, pyOr pr.2 (extract_local_name pr.1)))

/-- The blank-node-range pass at the end of `_get_properties_for_class`:
properties with no concrete declared range get the resolved members. -/
def resolvePass (g : Graph) (props : List PropertyInfo) : List PropertyInfo :=
  props.map (fun pi =>
    if pi.ranges.isEmpty then
      { pi with ranges := pi.ranges ++ resolve_blank_node_range g pi.uri }
    else pi)

/-- Models `_get_properties_for_class` (insertion-ordered values of the
`props` dict). -/
def get_properties_for_class (g : Graph) (c : String) : List PropertyInfo :=
  resolvePass g ((domainRows g c).foldl (updProps c) [])

/-! #### Superclass chain (`_get_superclass_chain`) -/

structure ChainEntry where
  uri : String
  label : String
deriving DecidableEq, Repr

/-- The `LIMIT 1` parent query: first `rdfs:subClassOf` triple of `cur`
whose object is an IRI, with that parent's first optional label. -/
def firstParentRow (g : Graph) (cur : String) : Option (String × Option String) :=
  match (objectsOf g RDFS_SUBCLASS_OF (Term.iri cur)).filter Term.isIRI with
  | [] => none
  | p :: _ => some (p.render, ((objectsOf g RDFS_LABEL p).map Term.render).head?)

/-- The bounded upward walk of `_get_superclass_chain`. -/
def superclassChainGo (g : Graph) : Nat → String → List String → List ChainEntry
  | 0, _, _ => []
  | fuel + 1, cur, visited =>
    match firstParentRow g cur with
    | none => []
    | some (p, plabel) =>
      if p = "" ∨ p ∈ visited then []
      else if p ∈ EXCLUDED_CLASSES then []
      else { uri := p, label := pyOr plabel (extract_local_name p) } ::
        superclassChainGo g fuel p (p :: visited)

/-- Models `_get_superclass_chain`: at most 50 hops, visited-set guarded,
stopping (without adding) at an excluded root. -/
def get_superclass_chain (g : Graph) (c : String) : List ChainEntry :=
  superclassChainGo g 50 c [c]

/-! #### `get_class_properties` -/

structure InheritedPropertyGroup where
  fromClass : ChainEntry
  properties : List PropertyInfo
deriving DecidableEq, Repr

/-- Sort key of the three output lists: `x.label or ""` under Python's
default (case-sensitive, code-point) string order; the label of a built
`PropertyInfo` is always a string, and `"" or ""` is `""`, so the key is
just the label. -/
def propLabelRel (a b : PropertyInfo) : Prop :=
  strLeB a.label b.label = true

instance : DecidableRel propLabelRel := fun a b => by
  unfold propLabelRel; infer_instance

/-- The inherited-groups loop of `get_class_properties`: outward-in along
the chain, skipping property URIs seen at a closer level, omitting
ancestors that contribute nothing. -/
def inheritedGroups (g : Graph) : List ChainEntry → List String → List InheritedPropertyGroup
  | [], _ => []
  | anc :: rest, seen =>
    let ancProps := get_properties_for_class g anc.uri
    let newProps := ancProps.filter (fun pi => pi.uri ∉ seen)
    if newProps.isEmpty then inheritedGroups g rest seen
    else { fromClass := anc, properties := List.insertionSort propLabelRel newProps } ::
      inheritedGroups g rest (seen ++ newProps.map (·.uri))

/-- One row of the range query
`SELECT DISTINCT ?prop ?propLabel ?propType ?domain ?domainLabel`. -/
structure RangeRow where
  prop : String
  propLabel : Option String
  propType : Option String
  domainU : Option String
  domainLabel : Option String
deriving DecidableEq, Repr

/-- The nested domain OPTIONAL of the range query. -/
def domainOptions (g : Graph) (p : Term) : List (Option String × Option String) :=
  match objectsOf g RDFS_DOMAIN p with
  | [] => [(none, none)]
  | ds => ds.flatMap (fun d =>
      (optIter (objectsOf g RDFS_LABEL d)).map (fun dl =>
        (some d.render, dl.map Term.render)))

/-- Rows of the range query of `get_class_properties`. -/
def rangeRows (g : Graph) (c : String) : List RangeRow :=
  dedupFirst ((dedupFirst (subjectsOf g RDFS_RANGE (Term.iri c))).flatMap (fun p =>
    (optIter (objectsOf g RDFS_LABEL p)).flatMap (fun pl =>
    (propTypeOptions g p).flatMap (fun ty =>
    (domainOptions g p).map (fun dm =>
      { prop := p.render, propLabel := pl.map Term.render, propType := ty,
        domainU := dm.1, domainLabel := dm.2 })))))

def mkRangePropInfo (c : String) (r : RangeRow) : PropertyInfo :=
  { uri := r.prop, label := pyOr r.propLabel (extract_local_name r.prop),
    propertyType := propTypeName r.propType,
    domains := [], ranges := [(c, extract_local_name c)] }

/-- Append a (non-duplicate) domain to every entry with URI `p`. -/
def addDomain (props : List PropertyInfo) (p du dl : String) : List PropertyInfo :=
  props.map (fun pi =>
    if pi.uri = p then
      if du ∈ pi.domains.map Prod.fst then pi
      else { pi with domains := pi.domains ++ [(du, dl)] }
    else pi)

/-- The row loop over the range-query results. -/
def updRangeProps (c : String) (props : List PropertyInfo) (r : RangeRow) :
    List PropertyInfo :=
  if r.prop = "" then props
  else
    let props1 := if props.any (fun pi => pi.uri = r.prop) then props
      else props ++ [mkRangePropInfo c r]
    match r.domainU with
    | some du =>
      if ¬(du = "") ∧ startsWithB du "_:" = false then
        addDomain props1 r.prop du (pyOr r.domainLabel (extract_local_name du))
      else props1
    | none => props1

structure ClassProperties where
  domain_of : List PropertyInfo
  inherited : List InheritedPropertyGroup
  range_of : List PropertyInfo
deriving DecidableEq, Repr

/-- Models `get_class_properties`. -/
def get_class_properties (g : Graph) (c : String) : ClassProperties :=
  let domainProps := get_properties_for_class g c
  let chain := get_superclass_chain g c
  { domain_of := List.insertionSort propLabelRel domainProps,
    inherited := inheritedGroups g chain (domainProps.map (·.uri)),
    range_of := List.insertionSort propLabelRel
      ((rangeRows g c).foldl (updRangeProps c) []) }

/-! ### Spec-side definitions (written from the spec's words, for comparison
with the source-derived functions above) -/

/-- Modelled from the spec: "a node's `parent_uris` never contains the
node's own URI (self-loops are dropped)". -/
def spec_noSelfParent (g : Graph) (cfg : OntologyConfig) : Prop :=
  (get_class_hierarchy g cfg).Forall (fun n => n.uri ∉ n.parentUris)

/-- Modelled from the spec: member order "by notation then label;
case-insensitive tie-break on label". -/
def spec_memberContractLe (a b : CodeListMember) : Prop :=
  optStrLtB a.notationVal b.notationVal = true ∨
    (a.notationVal = b.notationVal ∧ strLeB (lowerStr a.label) (lowerStr b.label) = true)

/-- The member list `get_codelist_info` returns (empty when no pattern is
detected). -/
def codelistMembers (g : Graph) (e : String) : List CodeListMember :=
  (get_codelist_info g e).elim [] (fun i => i.members)

/-- Modelled from the spec: `resolveMembers` returns a list "ordered by
notation then label; case-insensitive tie-break on label" that "contains no
duplicate members". -/
def spec_codelistMembersContract (g : Graph) (e : String) : Prop :=
  (codelistMembers g e).Pairwise spec_memberContractLe ∧
    ((codelistMembers g e).map (fun m => m.uri)).Nodup

/-- Modelled from the spec: case-insensitive label order ("sorted by label,
case-insensitive, empty label sorts first" — the empty label is `≤`
everything under this order already). -/
def spec_ciLabelRel (a b : PropertyInfo) : Prop :=
  strLeB (lowerStr a.label) (lowerStr b.label) = true

/-- Modelled from the spec: "all three output lists are sorted by label,
case-insensitive". -/
def spec_classPropsSortedCI (g : Graph) (c : String) : Prop :=
  (get_class_properties g c).domain_of.Pairwise spec_ciLabelRel ∧
  List.Forall (fun gr => gr.properties.Pairwise spec_ciLabelRel)
    (get_class_properties g c).inherited ∧
  (get_class_properties g c).range_of.Pairwise spec_ciLabelRel

/-- Modelled from the spec: the concrete (non-blank) members of the whole
`owl:oneOf` list reached by `range → oneOf-list` (the full `rdf:rest*`
walk, unlike the source query). -/
def spec_oneOfListMembers (g : Graph) (p : String) : List String :=
  (objectsOf g RDFS_RANGE (Term.iri p)).flatMap (fun r =>
    (objectsOf g OWL_ONE_OF r).flatMap (fun l0 =>
      (((restStar g l0).flatMap (objectsOf g RDF_FIRST)).filter
        (fun m => m.isBlankNode = false)).map Term.render))

/-- Modelled from the spec: "a property declares zero concrete (non-blank)
ranges". -/
def spec_noConcreteRange (g : Graph) (p : String) : Prop :=
  (objectsOf g RDFS_RANGE (Term.iri p)).Forall (fun r => r.isBlankNode = true)

/-- Modelled from the spec: for such a property, every concrete list member
is returned as a synthetic range. -/
def spec_blankRangeResolutionComplete (g : Graph) (c : String) : Prop :=
  List.Forall (fun pi => spec_noConcreteRange g pi.uri →
      List.Forall (fun m => m ∈ pi.ranges.map Prod.fst) (spec_oneOfListMembers g pi.uri))
    (get_class_properties g c).domain_of

/-! ### Concrete inputs used by the counterexamples and witnesses -/

/-- A graph whose only class has a self-referential subclass edge. -/
def c1Graph : Graph :=
  [ ⟨Term.iri "http://ex/A", Term.iri RDF_TYPE, Term.iri OWL_CLASS⟩,
    ⟨Term.iri "http://ex/A", Term.iri RDFS_SUBCLASS_OF, Term.iri "http://ex/A"⟩ ]

def c1Config : OntologyConfig := ⟨[], "label", false⟩

/-- The hierarchy node the engine produces for `c1Graph` (it lists itself
as a parent). -/
def c1Node : HierarchyNode :=
  ⟨"http://ex/A", "A", none, "Class", ["http://ex/A"], true, false⟩

/-- A concept scheme with members `M1` (label `"a"`, notations `"2"`,`"3"`)
and `M2` (label `"B"`, notation `"1"`). -/
def c2Graph : Graph :=
  [ ⟨Term.iri "http://ex/M1", Term.iri SKOS_IN_SCHEME, Term.iri "http://ex/E"⟩,
    ⟨Term.iri "http://ex/M2", Term.iri SKOS_IN_SCHEME, Term.iri "http://ex/E"⟩,
    ⟨Term.iri "http://ex/M1", Term.iri SKOS_PREF_LABEL, Term.lit "a"⟩,
    ⟨Term.iri "http://ex/M1", Term.iri SKOS_NOTATION, Term.lit "2"⟩,
    ⟨Term.iri "http://ex/M1", Term.iri SKOS_NOTATION, Term.lit "3"⟩,
    ⟨Term.iri "http://ex/M2", Term.iri SKOS_PREF_LABEL, Term.lit "B"⟩,
    ⟨Term.iri "http://ex/M2", Term.iri SKOS_NOTATION, Term.lit "1"⟩ ]

/-- Two properties with domain `C` and labels `"B"` and `"a"`. -/
def c3Graph : Graph :=
  [ ⟨Term.iri "http://ex/P1", Term.iri RDFS_DOMAIN, Term.iri "http://ex/C"⟩,
    ⟨Term.iri "http://ex/P1", Term.iri RDFS_LABEL, Term.lit "B"⟩,
    ⟨Term.iri "http://ex/P2", Term.iri RDFS_DOMAIN, Term.iri "http://ex/C"⟩,
    ⟨Term.iri "http://ex/P2", Term.iri RDFS_LABEL, Term.lit "a"⟩ ]

/-- A property whose only range is a blank node carrying a two-element
`owl:oneOf` list `[M1, M2]`. -/
def c4Graph : Graph :=
  [ ⟨Term.iri "http://ex/P", Term.iri RDFS_DOMAIN, Term.iri "http://ex/C"⟩,
    ⟨Term.iri "http://ex/P", Term.iri RDFS_RANGE, Term.blank "b"⟩,
    ⟨Term.blank "b", Term.iri OWL_ONE_OF, Term.blank "l1"⟩,
    ⟨Term.blank "l1", Term.iri RDF_FIRST, Term.iri "http://ex/M1"⟩,
    ⟨Term.blank "l1", Term.iri RDF_REST, Term.blank "l2"⟩,
    ⟨Term.blank "l2", Term.iri RDF_FIRST, Term.iri "http://ex/M2"⟩,
    ⟨Term.blank "l2", Term.iri RDF_REST,
      Term.iri "http://www.w3.org/1999/02/22-rdf-syntax-ns#nil"⟩ ]

/-- The `PropertyInfo` the engine produces for `c4Graph` (only the first
list member appears as a synthetic range). -/
def c4Prop : PropertyInfo :=
  ⟨"http://ex/P", "P", "ObjectProperty", [("http://ex/C", "C")],
    [("http://ex/M1", "M1")]⟩

/-- An internal class whose direct parent lives in an external namespace. -/
def c5Graph : Graph :=
  [ ⟨Term.iri "http://int/C", Term.iri RDF_TYPE, Term.iri OWL_CLASS⟩,
    ⟨Term.iri "http://ext/P", Term.iri RDF_TYPE, Term.iri OWL_CLASS⟩,
    ⟨Term.iri "http://int/C", Term.iri RDFS_SUBCLASS_OF, Term.iri "http://ext/P"⟩ ]

def c5Config : OntologyConfig := ⟨["http://int/"], "label", false⟩

/-- The promoted parent node for `c5Graph`: external namespace, but
`is_external = false` in the output. -/
def c5Node : HierarchyNode :=
  ⟨"http://ext/P", "P", none, "Class", [], false, false⟩

/-- A child class with one parent edge (for the C7 witness). -/
def c7Graph : Graph :=
  [ ⟨Term.iri "http://ex7/C", Term.iri RDF_TYPE, Term.iri OWL_CLASS⟩,
    ⟨Term.iri "http://ex7/C", Term.iri RDFS_SUBCLASS_OF, Term.iri "http://ex7/P"⟩ ]

def c7Config : OntologyConfig := ⟨[], "label", false⟩

def c7Node : HierarchyNode :=
  ⟨"http://ex7/C", "C", none, "Class", ["http://ex7/P"], true, false⟩

def c9Config : OntologyConfig := ⟨[], "label", false⟩

/-- A single class in a selected (internal) namespace (for the C10 witness). -/
def c10Graph : Graph :=
  [ ⟨Term.iri "http://int10/C", Term.iri RDF_TYPE, Term.iri OWL_CLASS⟩ ]

def c10Config : OntologyConfig := ⟨["http://int10/"], "label", false⟩

def c10Node : HierarchyNode :=
  ⟨"http://int10/C", "C", none, "Class", [], false, false⟩

instance (g : Graph) (cfg : OntologyConfig) : Decidable (spec_noSelfParent g cfg) := by
  unfold spec_noSelfParent; infer_instance

instance (a b : CodeListMember) : Decidable (spec_memberContractLe a b) := by
  unfold spec_memberContractLe; infer_instance

instance (g : Graph) (e : String) : Decidable (spec_codelistMembersContract g e) := by
  unfold spec_codelistMembersContract; infer_instance

instance (a b : PropertyInfo) : Decidable (spec_ciLabelRel a b) := by
  unfold spec_ciLabelRel; infer_instance

instance (g : Graph) (c : String) : Decidable (spec_classPropsSortedCI g c) := by
  unfold spec_classPropsSortedCI; infer_instance

instance (g : Graph) (p : String) : Decidable (spec_noConcreteRange g p) := by
  unfold spec_noConcreteRange; infer_instance

instance (g : Graph) (c : String) : Decidable (spec_blankRangeResolutionComplete g c) := by
  unfold spec_blankRangeResolutionComplete; infer_instance

/-! ### General lemmas -/

theorem mem_foldl_dedupAux [DecidableEq α] (l : List α) :
    ∀ (acc : List α) (x : α),
      (x ∈ l.foldl (fun acc a => if a ∈ acc then acc else acc ++ [a]) acc) ↔
        x ∈ acc ∨ x ∈ l := by
  induction l with
  | nil => intro acc x; simp
  | cons a l ih =>
    intro acc x
    simp only [List.foldl_cons]
    rw [ih]
    by_cases h : a ∈ acc
    · simp only [if_pos h, List.mem_cons]
      constructor
      · rintro (hx | hx)
        · exact Or.inl hx
        · exact Or.inr (Or.inr hx)
      · rintro (hx | hx | hx)
        · exact Or.inl hx
        · exact Or.inl (hx ▸ h)
        · exact Or.inr hx
    · simp only [if_neg h, List.mem_append, List.mem_singleton, List.mem_cons]
      tauto

theorem mem_dedupFirst [DecidableEq α] {l : List α} {x : α} :
    x ∈ dedupFirst l ↔ x ∈ l := by
  unfold dedupFirst
  rw [mem_foldl_dedupAux]
  simp

theorem optIter_exists (l : List α) : ∃ y, y ∈ optIter l :=
  match l with
  | [] => ⟨none, by simp [optIter]⟩
  | a :: l => ⟨some a, by simp [optIter]⟩

theorem some_mem_optIter {l : List α} {a : α} (h : a ∈ l) : some a ∈ optIter l := by
  cases l with
  | nil => cases h
  | cons b l => exact List.mem_map_of_mem some h

theorem mem_optIter {l : List α} {y : Option α} (h : y ∈ optIter l) :
    y = none ∨ ∃ a ∈ l, y = some a := by
  cases l with
  | nil =>
    simp only [optIter, List.mem_singleton] at h
    exact Or.inl h
  | cons b l =>
    rcases List.mem_map.mp (show y ∈ (b :: l).map some from h) with ⟨a, ha, rfl⟩
    exact Or.inr ⟨a, ha, rfl⟩

theorem foldl_preserve {α β : Type _} {P : β → Prop} (f : β → α → β) :
    ∀ (l : List α), (∀ st a, a ∈ l → P st → P (f st a)) →
      ∀ init, P init → P (l.foldl f init) := by
  intro l
  induction l with
  | nil => intro _ init h; exact h
  | cons a l ih =>
    intro hstep init h
    exact ih (fun st b hb => hstep st b (List.mem_cons_of_mem _ hb)) (f init a)
      (hstep init a (List.mem_cons_self _ _) h)

theorem foldl_establish {α β : Type _} {Q : β → Prop} (f : β → α → β) :
    ∀ (l : List α) (r : α), r ∈ l → (∀ st, Q (f st r)) →
      (∀ st a, a ∈ l → Q st → Q (f st a)) → ∀ init, Q (l.foldl f init) := by
  intro l
  induction l with
  | nil => intro r hr; cases hr
  | cons a l ih =>
    intro r hr hest hpres init
    rcases List.mem_cons.mp hr with rfl | hr'
    · exact foldl_preserve f l (fun st b hb => hpres st b (List.mem_cons_of_mem _ hb)) _
        (hest init)
    · exact ih r hr' hest (fun st b hb => hpres st b (List.mem_cons_of_mem _ hb)) (f init a)

theorem lookup_mem {β : Type _} {l : List (String × β)} {k : String} {v : β}
    (h : List.lookup k l = some v) : (k, v) ∈ l := by
  induction l with
  | nil => cases h
  | cons e l ih =>
    obtain ⟨k', v'⟩ := e
    by_cases hk : k = k'
    · subst hk
      simp only [List.lookup, beq_self_eq_true] at h
      injection h with h
      exact h ▸ List.mem_cons_self _ _
    · have hb : (k == k') = false := beq_eq_false_iff_ne.mpr hk
      simp only [List.lookup, hb] at h
      exact List.mem_cons_of_mem _ (ih h)

/-! ### Order lemmas for the sort relations -/

theorem charListLe_total : ∀ a b : List Char, charListLe a b = true ∨ charListLe b a = true
  | [], _ => Or.inl rfl
  | _ :: _, [] => Or.inr rfl
  | a :: as, b :: bs => by
    unfold charListLe
    rcases Nat.lt_trichotomy a.toNat b.toNat with h | h | h
    · left; simp [h]
    · have h1 : ¬ a.toNat < b.toNat := by omega
      have h2 : ¬ b.toNat < a.toNat := by omega
      rcases charListLe_total as bs with ih | ih
      · left; simp [h1, h2, ih]
      · right; simp [h1, h2, ih]
    · right; simp [h, Nat.lt_asymm h]

theorem charListLe_trans : ∀ a b c : List Char,
    charListLe a b = true → charListLe b c = true → charListLe a c = true
  | [], _, _ => fun _ _ => rfl
  | a :: as, [], c => by intro h _; simp [charListLe] at h
  | a :: as, b :: bs, [] => by intro _ h; simp [charListLe] at h
  | a :: as, b :: bs, c :: cs => by
    intro h1 h2
    unfold charListLe at h1 h2 ⊢
    rcases Nat.lt_trichotomy a.toNat b.toNat with hab | hab | hab <;>
      rcases Nat.lt_trichotomy b.toNat c.toNat with hbc | hbc | hbc
    · simp [show a.toNat < c.toNat by omega]
    · simp [show a.toNat < c.toNat by omega]
    · simp [show ¬ b.toNat < c.toNat by omega, show c.toNat < b.toNat by omega] at h2
    · simp [show a.toNat < c.toNat by omega]
    · have h1' : charListLe as bs = true := by
        simpa [show ¬ a.toNat < b.toNat by omega, show ¬ b.toNat < a.toNat by omega] using h1
      have h2' : charListLe bs cs = true := by
        simpa [show ¬ b.toNat < c.toNat by omega, show ¬ c.toNat < b.toNat by omega] using h2
      simp [show ¬ a.toNat < c.toNat by omega, show ¬ c.toNat < a.toNat by omega,
        charListLe_trans as bs cs h1' h2']
    · simp [show ¬ b.toNat < c.toNat by omega, show c.toNat < b.toNat by omega] at h2
    · simp [show ¬ a.toNat < b.toNat by omega, show b.toNat < a.toNat by omega] at h1
    · simp [show ¬ a.toNat < b.toNat by omega, show b.toNat < a.toNat by omega] at h1
    · simp [show ¬ a.toNat < b.toNat by omega, show b.toNat < a.toNat by omega] at h1

theorem strLeB_total (a b : String) : strLeB a b = true ∨ strLeB b a = true :=
  charListLe_total a.data b.data

theorem strLeB_trans {a b c : String} (h1 : strLeB a b = true) (h2 : strLeB b c = true) :
    strLeB a c = true :=
  charListLe_trans a.data b.data c.data h1 h2

/-! ### Claim C6: code-list detection precedence -/

/-- Claim C6 (confirmed): `detectPattern` checks the four patterns in the
fixed order skos_scheme, owl_oneof, owl_equivalent_oneof, skos_collection
and returns the first whose existence count is non-zero (none if all four
are zero); in particular an entity with both a non-zero scheme count and a
non-zero oneOf count is reported as `skos_scheme`. -/
theorem c6_detection_precedence (g : Graph) (e : String) :
    (detect_codelist_pattern g e = some "skos_scheme" ↔ 0 < skosSchemeCount g e) ∧
    (detect_codelist_pattern g e = some "owl_oneof" ↔
      skosSchemeCount g e = 0 ∧ 0 < owlOneOfCount g e) ∧
    (detect_codelist_pattern g e = some "owl_equivalent_oneof" ↔
      skosSchemeCount g e = 0 ∧ owlOneOfCount g e = 0 ∧ 0 < owlEquivOneOfCount g e) ∧
    (detect_codelist_pattern g e = some "skos_collection" ↔
      skosSchemeCount g e = 0 ∧ owlOneOfCount g e = 0 ∧ owlEquivOneOfCount g e = 0 ∧
        0 < skosCollectionCount g e) ∧
    (detect_codelist_pattern g e = none ↔
      skosSchemeCount g e = 0 ∧ owlOneOfCount g e = 0 ∧ owlEquivOneOfCount g e = 0 ∧
        skosCollectionCount g e = 0) := by
  unfold detect_codelist_pattern
  rcases Nat.eq_zero_or_pos (skosSchemeCount g e) with h1 | h1 <;>
    rcases Nat.eq_zero_or_pos (owlOneOfCount g e) with h2 | h2 <;>
      rcases Nat.eq_zero_or_pos (owlEquivOneOfCount g e) with h3 | h3 <;>
        rcases Nat.eq_zero_or_pos (skosCollectionCount g e) with h4 | h4 <;>
          simp_all <;> omega

/-! ### Claim C8: the superclass chain is bounded -/

theorem superclassChainGo_length_le (g : Graph) :
    ∀ (fuel : Nat) (cur : String) (visited : List String),
      (superclassChainGo g fuel cur visited).length ≤ fuel := by
  intro fuel
  induction fuel with
  | zero => intro cur visited; simp [superclassChainGo]
  | succ n ih =>
    intro cur visited
    unfold superclassChainGo
    cases firstParentRow g cur with
    | none => simp
    | some pr =>
      obtain ⟨p, plabel⟩ := pr
      by_cases hv : p = "" ∨ p ∈ visited
      · simp [hv]
      · by_cases he : p ∈ EXCLUDED_CLASSES
        · simp [hv, he]
        · simpa [hv, he] using ih p (p :: visited)

theorem superclassChainGo_not_excluded (g : Graph) :
    ∀ (fuel : Nat) (cur : String) (visited : List String),
      ∀ entry ∈ superclassChainGo g fuel cur visited, entry.uri ∉ EXCLUDED_CLASSES := by
  intro fuel
  induction fuel with
  | zero => intro cur visited entry h; simp [superclassChainGo] at h
  | succ n ih =>
    intro cur visited entry h
    unfold superclassChainGo at h
    cases hp : firstParentRow g cur with
    | none => rw [hp] at h; cases h
    | some pr =>
      obtain ⟨p, plabel⟩ := pr
      rw [hp] at h
      by_cases hv : p = "" ∨ p ∈ visited
      · simp [hv] at h
      · by_cases he : p ∈ EXCLUDED_CLASSES
        · simp [hv, he] at h
        · simp only [if_neg hv, if_neg he, List.mem_cons] at h
          rcases h with rfl | h
          · exact he
          · exact ih p (p :: visited) entry h

theorem superclassChainGo_fresh (g : Graph) :
    ∀ (fuel : Nat) (cur : String) (visited : List String),
      (∀ u ∈ (superclassChainGo g fuel cur visited).map (fun e => e.uri), u ∉ visited) ∧
        ((superclassChainGo g fuel cur visited).map (fun e => e.uri)).Nodup := by
  intro fuel
  induction fuel with
  | zero => intro cur visited; simp [superclassChainGo]
  | succ n ih =>
    intro cur visited
    unfold superclassChainGo
    cases firstParentRow g cur with
    | none => simp
    | some pr =>
      obtain ⟨p, plabel⟩ := pr
      by_cases hv : p = "" ∨ p ∈ visited
      · simp [hv]
      · by_cases he : p ∈ EXCLUDED_CLASSES
        · simp [hv, he]
        · simp only [if_neg hv, if_neg he, List.map_cons, List.nodup_cons, List.mem_cons]
          have hrest := ih p (p :: visited)
          push_neg at hv
          constructor
          · intro u hu
            rcases hu with rfl | hu
            · exact hv.2
            · intro huv
              exact hrest.1 u hu (List.mem_cons_of_mem _ huv)
          · constructor
            · intro hp
              exact hrest.1 p hp (List.mem_cons_self _ _)
            · exact hrest.2

/-- Claim C8 (confirmed): the superclass inheritance chain walk is capped
at 50 hops and terminates even on cyclic graphs: the chain has at most 50
entries, never contains an excluded root (the walk stops there without
adding it), and never revisits a node (the start included), which is the
visited-set stopping rule. -/
theorem c8_superclass_chain_bounded (g : Graph) (c : String) :
    (get_superclass_chain g c).length ≤ 50 ∧
    (∀ entry ∈ get_superclass_chain g c, entry.uri ∉ EXCLUDED_CLASSES) ∧
    (c :: (get_superclass_chain g c).map (fun e => e.uri)).Nodup := by
  refine ⟨superclassChainGo_length_le g 50 c [c],
    superclassChainGo_not_excluded g 50 c [c], ?_⟩
  have hfresh := superclassChainGo_fresh g 50 c [c]
  rw [List.nodup_cons]
  exact ⟨fun hc => hfresh.1 c hc (List.mem_singleton.mpr rfl), hfresh.2⟩

/-! ### Claim C9: missing/empty graph gives an empty hierarchy -/

theorem processRows_nil (internal : List String) (sd : Bool) :
    processRows [] internal sd = [] := by
  cases sd <;> simp [processRows, hierarchyState, class_data, promoteNodes,
    List.insertionSort]

/-- Claim C9 (confirmed): if the named graph has no triples, or no
`owl:Class`/`rdfs:Class` declarations at all, `buildHierarchy`
(`get_class_hierarchy`) returns the empty list (it is a total function in
this model — no exception is possible). -/
theorem c9_empty_graph_empty_hierarchy (g : Graph) (cfg : OntologyConfig)
    (h : ∀ t ∈ g, ¬(t.pred = Term.iri RDF_TYPE ∧
      (t.obj = Term.iri OWL_CLASS ∨ t.obj = Term.iri RDFS_CLASS))) :
    get_class_hierarchy g cfg = [] := by
  have hfilter : g.filter (fun t => t.pred = Term.iri RDF_TYPE ∧
      (t.obj = Term.iri OWL_CLASS ∨ t.obj = Term.iri RDFS_CLASS)) = [] := by
    rw [List.filter_eq_nil_iff]
    intro a ha
    simpa using h a ha
  have hq : hierarchyQuery g = [] := by
    unfold hierarchyQuery
    rw [hfilter]
    rfl
  unfold get_class_hierarchy
  rw [hq, processRows_nil]

/-- Claim C9 witness: the empty graph yields the empty hierarchy. -/
theorem c9_witness : get_class_hierarchy [] c9Config = [] :=
  c9_empty_graph_empty_hierarchy [] c9Config (by intro t ht; cases ht)

/-! ### Claim C1: self-loops (counterexample and amended claim) -/

/-- Claim C1 counterexample: on a graph whose only class `A` carries
`A subClassOf A`, the node for `A` lists `A` itself in `parent_uris` —
the engine drops excluded-root and blank parents but not self-loops. -/
theorem c1_counterexample : ¬ spec_noSelfParent c1Graph c1Config := by decide

/-! ### Claim C2: member ordering (counterexample and amended claim) -/

/-- Claim C2 counterexample: for the scheme of `c2Graph`, the returned
member list is `[M1("a","2"), M1("a","3"), M2("B","1")]` — ordered by
lowercased label, not by notation, and with `M1` duplicated (one entry per
distinct notation binding). -/
theorem c2_counterexample : ¬ spec_codelistMembersContract c2Graph "http://ex/E" := by
  decide

theorem get_codelist_info_members {g : Graph} {e : String} {i : CodeListInfo}
    (h : get_codelist_info g e = some i) :
    i.members = List.insertionSort memberLowerRel (rawMembers g e i.pattern) := by
  unfold get_codelist_info at h
  cases hd : detect_codelist_pattern g e with
  | none => rw [hd] at h; cases h
  | some pat =>
    rw [hd] at h
    injection h with h
    subst h
    rfl

/-- Claim C2 amended: the member list returned by `resolveMembers`
(`get_codelist_info`) is ordered by lowercased label (case-insensitive,
code-point order on the lowercased labels); it is deduplicated only per
distinct retrieved binding, so a member with several notations or labels
can appear more than once (as the counterexample exhibits). -/
theorem c2_amended (g : Graph) (e : String) :
    (codelistMembers g e).Pairwise memberLowerRel := by
  unfold codelistMembers
  cases hd : get_codelist_info g e with
  | none => simp
  | some i =>
    simp only [Option.elim]
    rw [get_codelist_info_members hd]
    haveI : IsTotal CodeListMember memberLowerRel :=
      ⟨fun a b => strLeB_total (lowerStr a.label) (lowerStr b.label)⟩
    haveI : IsTrans CodeListMember memberLowerRel :=
      ⟨fun _ _ _ h1 h2 => strLeB_trans h1 h2⟩
    exact List.sorted_insertionSort memberLowerRel _

/-! ### Claim C3: property list ordering (counterexample and amended claim) -/

/-- Claim C3 counterexample: with property labels `"B"` and `"a"`, the
engine returns `domain_of` in the order `["B", "a"]` (case-sensitive
code-point order), which is not case-insensitive order. -/
theorem c3_counterexample : ¬ spec_classPropsSortedCI c3Graph "http://ex/C" := by
  decide

theorem inheritedGroups_sorted (g : Graph) :
    ∀ (chain : List ChainEntry) (seen : List String),
      List.Forall (fun gr => gr.properties.Pairwise propLabelRel)
        (inheritedGroups g chain seen) := by
  intro chain
  induction chain with
  | nil => intro seen; simp [inheritedGroups]
  | cons anc rest ih =>
    intro seen
    simp only [inheritedGroups]
    haveI : IsTotal PropertyInfo propLabelRel :=
      ⟨fun a b => strLeB_total a.label b.label⟩
    haveI : IsTrans PropertyInfo propLabelRel :=
      ⟨fun _ _ _ h1 h2 => strLeB_trans h1 h2⟩
    split
    · exact ih seen
    · rw [List.forall_cons]
      exact ⟨List.sorted_insertionSort propLabelRel _, ih _⟩

/-- Claim C3 amended: all three lists returned by `getClassProperties`
(`domain_of`, the properties inside each inherited group, and `range_of`)
are sorted by label under Python's default case-SENSITIVE (code-point)
string order, the missing/empty label sorting as `""`; the sort is not
case-insensitive (see the counterexample). -/
theorem c3_amended (g : Graph) (c : String) :
    (get_class_properties g c).domain_of.Pairwise propLabelRel ∧
    List.Forall (fun gr => gr.properties.Pairwise propLabelRel)
      (get_class_properties g c).inherited ∧
    (get_class_properties g c).range_of.Pairwise propLabelRel := by
  haveI : IsTotal PropertyInfo propLabelRel :=
    ⟨fun a b => strLeB_total a.label b.label⟩
  haveI : IsTrans PropertyInfo propLabelRel :=
    ⟨fun _ _ _ h1 h2 => strLeB_trans h1 h2⟩
  refine ⟨?_, ?_, ?_⟩
  · exact List.sorted_insertionSort propLabelRel _
  · exact inheritedGroups_sorted g _ _
  · exact List.sorted_insertionSort propLabelRel _

/-! ### Claim C4: blank-node range resolution (counterexample) -/

/-- Claim C4 counterexample: on `c4Graph` the property's oneOf list has the
two concrete members `M1, M2`, but only `M1` (the `rdf:first` of the list
head) is returned as a synthetic range — the resolution query never follows
`rdf:rest`. -/
theorem c4_counterexample : ¬ spec_blankRangeResolutionComplete c4Graph "http://ex/C" := by
  decide

/-! ### Hierarchy build lemmas -/

theorem mem_addParent {nodes : List HierarchyNode} {c p : String} {n : HierarchyNode}
    (h : n ∈ addParent nodes c p) :
    ∃ n₀ ∈ nodes, n.uri = n₀.uri ∧ n.label = n₀.label ∧ n.isExternal = n₀.isExternal ∧
      n.isDeprecated = n₀.isDeprecated ∧
      (n.parentUris = n₀.parentUris ∨ n.parentUris = n₀.parentUris ++ [p]) := by
  rcases List.mem_map.mp h with ⟨n₀, hn₀, rfl⟩
  refine ⟨n₀, hn₀, ?_⟩
  split_ifs <;> simp

theorem exists_uri_addParent {nodes : List HierarchyNode} {c p u : String} :
    (∃ n ∈ addParent nodes c p, n.uri = u) ↔ ∃ n ∈ nodes, n.uri = u := by
  constructor
  · rintro ⟨n, hn, hu⟩
    rcases mem_addParent hn with ⟨n₀, hn₀, huri, -⟩
    exact ⟨n₀, hn₀, huri ▸ hu⟩
  · rintro ⟨n₀, hn₀, hu⟩
    refine ⟨_, List.mem_map_of_mem _ hn₀, ?_⟩
    split_ifs <;> simpa using hu

theorem addParent_self {nodes : List HierarchyNode} {C P : String} :
    ∀ n ∈ addParent nodes C P, n.uri = C → P ∈ n.parentUris := by
  intro n hn hu
  rcases List.mem_map.mp hn with ⟨n₀, hn₀, rfl⟩
  by_cases h : n₀.uri = C
  · simp only [if_pos h] at hu ⊢
    split_ifs with hp
    · exact hp
    · simp
  · simp only [if_neg h] at hu
    exact absurd hu h

theorem addParent_pres_parent {nodes : List HierarchyNode} {c p C P : String}
    (hall : ∀ m ∈ nodes, m.uri = C → P ∈ m.parentUris) :
    ∀ n ∈ addParent nodes c p, n.uri = C → P ∈ n.parentUris := by
  intro n hn hu
  rcases mem_addParent hn with ⟨n₀, hn₀, huri, -, -, -, hpar⟩
  have hC : n₀.uri = C := by rw [← huri]; exact hu
  have hP := hall n₀ hn₀ hC
  rcases hpar with h | h <;> rw [h]
  · exact hP
  · exact List.mem_append_left _ hP

theorem lookup_append {β : Type _} (l₁ l₂ : List (String × β)) (p : String) :
    List.lookup p (l₁ ++ l₂) =
      match List.lookup p l₁ with
      | some v => some v
      | none => List.lookup p l₂ := by
  induction l₁ with
  | nil => simp [List.lookup]
  | cons e l₁ ih =>
    obtain ⟨k, w⟩ := e
    by_cases hpk : p = k
    · subst hpk
      simp [List.lookup]
    · have hb : (p == k) = false := beq_eq_false_iff_ne.mpr hpk
      simp only [List.cons_append, List.lookup, hb]
      exact ih

theorem lookup_eq_none_of_any_false {β : Type _} {cm : List (String × β)} {p : String}
    (h : cm.any (fun e => e.1 = p) = false) : List.lookup p cm = none := by
  induction cm with
  | nil => rfl
  | cons e cm ih =>
    obtain ⟨k, w⟩ := e
    simp only [List.any_cons] at h
    have h1 : decide (k = p) = false := by
      cases hd : decide (k = p)
      · rfl
      · rw [hd] at h; simp at h
    have h2 : cm.any (fun e => e.1 = p) = false := by
      cases hd : cm.any (fun e => e.1 = p)
      · rfl
      · rw [hd] at h; simp at h
    have hkp : ¬ k = p := of_decide_eq_false h1
    have hb : (p == k) = false := beq_eq_false_iff_ne.mpr (fun hpk => hkp hpk.symm)
    simp only [List.lookup, hb]
    exact ih h2

theorem lookup_isSome_of_any {β : Type _} {cm : List (String × β)} {p : String}
    (h : cm.any (fun e => e.1 = p) = true) : ∃ v, List.lookup p cm = some v := by
  induction cm with
  | nil => cases h
  | cons e cm ih =>
    obtain ⟨k, w⟩ := e
    by_cases hpk : p = k
    · have hb : (p == k) = true := beq_iff_eq.mpr hpk
      refine ⟨w, ?_⟩
      simp [List.lookup, hb]
    · have hb : (p == k) = false := beq_eq_false_iff_ne.mpr hpk
      simp only [List.any_cons, Bool.or_eq_true] at h
      rcases h with h | h
      · have hk : k = p := by simpa using h
        exact absurd hk.symm hpk
      · obtain ⟨v, hv⟩ := ih h
        exact ⟨v, by simp [List.lookup, hb, hv]⟩

theorem lookup_addChild_map (p' c' : String) :
    ∀ (cm : List (String × List String)) (p : String),
      List.lookup p (cm.map (fun e =>
          if e.1 = p' then (e.1, if c' ∈ e.2 then e.2 else e.2 ++ [c']) else e)) =
        if p = p' then
          (List.lookup p cm).map (fun v => if c' ∈ v then v else v ++ [c'])
        else List.lookup p cm := by
  intro cm
  induction cm with
  | nil => intro p; split_ifs <;> rfl
  | cons e cm ih =>
    intro p
    obtain ⟨k, w⟩ := e
    rw [List.map_cons]
    by_cases hkq : k = p'
    · have hhead : (if (k, w).1 = p' then
          ((k, w).1, if c' ∈ (k, w).2 then (k, w).2 else (k, w).2 ++ [c']) else (k, w)) =
          (k, if c' ∈ w then w else w ++ [c']) := by
        simp [hkq]
      rw [hhead]
      by_cases hpk : p = k
      · subst hpk
        simp [List.lookup, hkq]
      · have hb : (p == k) = false := beq_eq_false_iff_ne.mpr hpk
        simp only [List.lookup, hb, ih p]
    · have hhead : (if (k, w).1 = p' then
          ((k, w).1, if c' ∈ (k, w).2 then (k, w).2 else (k, w).2 ++ [c']) else (k, w)) =
          (k, w) := by
        simp [hkq]
      rw [hhead]
      by_cases hpk : p = k
      · subst hpk
        simp [List.lookup, hkq]
      · have hb : (p == k) = false := beq_eq_false_iff_ne.mpr hpk
        simp only [List.lookup, hb, ih p]

theorem childrenOf_addChild_mono {cm : List (String × List String)} {p' c' p x : String}
    (h : x ∈ childrenOf cm p) : x ∈ childrenOf (addChild cm p' c') p := by
  unfold childrenOf at h ⊢
  cases hl : List.lookup p cm with
  | none => rw [hl] at h; simp at h
  | some v =>
    rw [hl] at h
    unfold addChild
    by_cases hany : cm.any (fun e => e.1 = p') = true
    · rw [if_pos hany, lookup_addChild_map p' c']
      by_cases hpq : p = p'
      · simp only [if_pos hpq, hl, Option.map_some']
        split_ifs
        · exact h
        · exact List.mem_append_left _ h
      · simp only [if_neg hpq, hl]
        exact h
    · rw [if_neg hany, lookup_append, hl]
      exact h

theorem childrenOf_addChild_self (cm : List (String × List String)) (p c : String) :
    c ∈ childrenOf (addChild cm p c) p := by
  unfold childrenOf addChild
  by_cases hany : cm.any (fun e => e.1 = p) = true
  · rw [if_pos hany, lookup_addChild_map p c, if_pos rfl]
    obtain ⟨v, hv⟩ := lookup_isSome_of_any hany
    rw [hv, Option.map_some']
    split_ifs with hc
    · exact hc
    · simp
  · have hfalse : cm.any (fun e => e.1 = p) = false := by
      cases hb : cm.any (fun e => e.1 = p)
      · rfl
      · exact absurd hb hany
    rw [if_neg hany, lookup_append, lookup_eq_none_of_any_false hfalse]
    simp [List.lookup]

theorem mem_addChild {cm : List (String × List String)} {p c : String}
    {e' : String × List String} (h : e' ∈ addChild cm p c) :
    (∃ e ∈ cm, e'.1 = e.1 ∧ (e'.2 = e.2 ∨ e'.2 = e.2 ++ [c])) ∨ e' = (p, [c]) := by
  unfold addChild at h
  split_ifs at h with hany
  · rcases List.mem_map.mp h with ⟨e, he, rfl⟩
    left
    refine ⟨e, he, ?_⟩
    split_ifs <;> simp
  · rcases List.mem_append.mp h with he | he
    · exact Or.inl ⟨e', he, rfl, Or.inl rfl⟩
    · exact Or.inr (List.mem_singleton.mp he)

theorem processRow_cases (internal : List String) (st : BuildState) (r : HRow) :
    processRow internal st r = st ∨
    ∃ c nodes1, r.classU = some c ∧ ¬(c = "") ∧
      ((nodes1 = st.nodes ∧ st.nodes.any (fun n => n.uri = c) = true) ∨
        (nodes1 = st.nodes ++ [mkHierarchyNode internal c r] ∧
          st.nodes.any (fun n => n.uri = c) = false)) ∧
      (processRow internal st r = ⟨nodes1, st.childrenMap⟩ ∨
        ∃ p, r.parentU = some p ∧ ¬(p = "") ∧ p ∉ EXCLUDED_CLASSES ∧
          startsWithB p "_:" = false ∧
          processRow internal st r = ⟨addParent nodes1 c p, addChild st.childrenMap p c⟩) := by
  cases hc : r.classU with
  | none => exact Or.inl (by simp [processRow, hc])
  | some c =>
    by_cases hce : c = ""
    · exact Or.inl (by simp [processRow, hc, hce])
    · right
      cases hany : st.nodes.any (fun n => n.uri = c) with
      | true =>
        refine ⟨c, st.nodes, rfl, hce, Or.inl ⟨rfl, hany⟩, ?_⟩
        cases hp : r.parentU with
        | none => exact Or.inl (by simp [processRow, hc, hce, hany, hp])
        | some p =>
          by_cases hcond : ¬(p = "") ∧ p ∉ EXCLUDED_CLASSES ∧ startsWithB p "_:" = false
          · exact Or.inr ⟨p, rfl, hcond.1, hcond.2.1, hcond.2.2,
              by simp [processRow, hc, hce, hany, hp, hcond]⟩
          · exact Or.inl (by simp [processRow, hc, hce, hany, hp, hcond])
      | false =>
        refine ⟨c, st.nodes ++ [mkHierarchyNode internal c r], rfl, hce,
          Or.inr ⟨rfl, hany⟩, ?_⟩
        cases hp : r.parentU with
        | none => exact Or.inl (by simp [processRow, hc, hce, hany, hp])
        | some p =>
          by_cases hcond : ¬(p = "") ∧ p ∉ EXCLUDED_CLASSES ∧ startsWithB p "_:" = false
          · exact Or.inr ⟨p, rfl, hcond.1, hcond.2.1, hcond.2.2,
              by simp [processRow, hc, hce, hany, hp, hcond]⟩
          · exact Or.inl (by simp [processRow, hc, hce, hany, hp, hcond])

theorem processRow_parents_clean {internal : List String} {st : BuildState} {r : HRow}
    (hP : ∀ n ∈ st.nodes, ∀ p ∈ n.parentUris,
      p ∉ EXCLUDED_CLASSES ∧ startsWithB p "_:" = false) :
    ∀ n ∈ (processRow internal st r).nodes, ∀ p ∈ n.parentUris,
      p ∉ EXCLUDED_CLASSES ∧ startsWithB p "_:" = false := by
  rcases processRow_cases internal st r with heq | ⟨c, nodes1, hc, hce, hn1, hrest⟩
  · rw [heq]; exact hP
  · have hP1 : ∀ n ∈ nodes1, ∀ p ∈ n.parentUris,
        p ∉ EXCLUDED_CLASSES ∧ startsWithB p "_:" = false := by
      rcases hn1 with ⟨rfl, -⟩ | ⟨rfl, -⟩
      · exact hP
      · intro n hn
        rcases List.mem_append.mp hn with hn | hn
        · exact hP n hn
        · rcases List.mem_singleton.mp hn with rfl
          intro p hp
          simp [mkHierarchyNode] at hp
    rcases hrest with heq | ⟨p, hp, hpe, hpex, hpb, heq⟩
    · rw [heq]; exact hP1
    · rw [heq]
      intro n hn q hq
      rcases mem_addParent hn with ⟨n₀, hn₀, -, -, -, -, hpar⟩
      rcases hpar with hh | hh
      · exact hP1 n₀ hn₀ q (hh ▸ hq)
      · rw [hh] at hq
        rcases List.mem_append.mp hq with hq | hq
        · exact hP1 n₀ hn₀ q hq
        · rcases List.mem_singleton.mp hq with rfl
          exact ⟨hpex, hpb⟩

theorem processRow_isExternal_inv {internal : List String} {st : BuildState} {r : HRow}
    (hP : ∀ n ∈ st.nodes, n.isExternal = isExternalNs internal n.uri) :
    ∀ n ∈ (processRow internal st r).nodes,
      n.isExternal = isExternalNs internal n.uri := by
  rcases processRow_cases internal st r with heq | ⟨c, nodes1, hc, hce, hn1, hrest⟩
  · rw [heq]; exact hP
  · have hP1 : ∀ n ∈ nodes1, n.isExternal = isExternalNs internal n.uri := by
      rcases hn1 with ⟨rfl, -⟩ | ⟨rfl, -⟩
      · exact hP
      · intro n hn
        rcases List.mem_append.mp hn with hn | hn
        · exact hP n hn
        · rcases List.mem_singleton.mp hn with rfl
          rfl
    rcases hrest with heq | ⟨p, hp, hpe, hpex, hpb, heq⟩
    · rw [heq]; exact hP1
    · rw [heq]
      intro n hn
      rcases mem_addParent hn with ⟨n₀, hn₀, huri, -, hext, -, -⟩
      rw [hext, huri]
      exact hP1 n₀ hn₀

theorem processRow_closure {internal : List String} {st : BuildState} {r : HRow}
    (hP : ∀ e ∈ st.childrenMap, ∀ x ∈ e.2, ∃ n ∈ st.nodes, n.uri = x) :
    ∀ e ∈ (processRow internal st r).childrenMap, ∀ x ∈ e.2,
      ∃ n ∈ (processRow internal st r).nodes, n.uri = x := by
  rcases processRow_cases internal st r with heq | ⟨c, nodes1, hc, hce, hn1, hrest⟩
  · rw [heq]; exact hP
  · have hup : ∀ x, (∃ n ∈ st.nodes, n.uri = x) → ∃ n ∈ nodes1, n.uri = x := by
      rcases hn1 with ⟨rfl, -⟩ | ⟨rfl, -⟩
      · exact fun x h => h
      · rintro x ⟨n, hn, hx⟩
        exact ⟨n, List.mem_append_left _ hn, hx⟩
    have hcnode : ∃ n ∈ nodes1, n.uri = c := by
      rcases hn1 with ⟨rfl, hany⟩ | ⟨rfl, -⟩
      · rcases List.any_eq_true.mp hany with ⟨n, hn, hx⟩
        exact ⟨n, hn, of_decide_eq_true hx⟩
      · exact ⟨mkHierarchyNode internal c r,
          List.mem_append_right _ (List.mem_singleton.mpr rfl), rfl⟩
    rcases hrest with heq | ⟨p, hp, hpe, hpex, hpb, heq⟩
    · rw [heq]
      intro e he x hx
      exact hup x (hP e he x hx)
    · rw [heq]
      intro e he x hx
      have hex : ∀ y, (∃ n ∈ nodes1, n.uri = y) →
          ∃ n ∈ addParent nodes1 c p, n.uri = y :=
        fun y h => exists_uri_addParent.mpr h
      rcases mem_addChild he with ⟨e₀, he₀, -, hsub⟩ | rfl
      · rcases hsub with hh | hh
        · exact hex x (hup x (hP e₀ he₀ x (hh ▸ hx)))
        · rw [hh] at hx
          rcases List.mem_append.mp hx with hx | hx
          · exact hex x (hup x (hP e₀ he₀ x hx))
          · obtain hxeq := List.mem_singleton.mp hx
            rw [hxeq]
            exact hex c hcnode
      · obtain hxeq := List.mem_singleton.mp hx
        rw [hxeq]
        exact hex c hcnode

theorem class_data_valid {rows : List HRow} {r : HRow} {c : String}
    (h : r ∈ class_data rows) (hc : r.classU = some c) :
    ¬(c = "") ∧ startsWithB c "_:" = false ∧ c ∉ EXCLUDED_CLASSES := by
  unfold class_data at h
  have hp := (List.mem_filter.mp h).2
  simp only [hc] at hp
  have hp' := of_decide_eq_true hp
  push_neg at hp'
  refine ⟨hp'.1, ?_, hp'.2.2⟩
  cases hb : startsWithB c "_:"
  · rfl
  · exact absurd hb hp'.2.1

theorem mem_class_data_of {rows : List HRow} {r : HRow} {c : String}
    (hr : r ∈ rows) (hc : r.classU = some c) (h1 : ¬(c = ""))
    (h2 : startsWithB c "_:" = false) (h3 : c ∉ EXCLUDED_CLASSES) :
    r ∈ class_data rows := by
  unfold class_data
  refine List.mem_filter.mpr ⟨hr, ?_⟩
  simp only [hc]
  apply decide_eq_true
  push_neg
  exact ⟨h1, by simp [h2], h3⟩

theorem hierarchyState_parents_clean (rows : List HRow) (internal : List String) :
    ∀ n ∈ (hierarchyState rows internal).nodes, ∀ p ∈ n.parentUris,
      p ∉ EXCLUDED_CLASSES ∧ startsWithB p "_:" = false := by
  unfold hierarchyState
  exact foldl_preserve
    (P := fun st => ∀ n ∈ st.nodes, ∀ p ∈ n.parentUris,
      p ∉ EXCLUDED_CLASSES ∧ startsWithB p "_:" = false)
    (processRow internal) (class_data rows)
    (fun st r _ hP => processRow_parents_clean hP) ⟨[], []⟩ (by intro n hn; cases hn)

theorem hierarchyState_isExternal (rows : List HRow) (internal : List String) :
    ∀ n ∈ (hierarchyState rows internal).nodes,
      n.isExternal = isExternalNs internal n.uri := by
  unfold hierarchyState
  exact foldl_preserve
    (P := fun st => ∀ n ∈ st.nodes, n.isExternal = isExternalNs internal n.uri)
    (processRow internal) (class_data rows)
    (fun st r _ hP => processRow_isExternal_inv hP) ⟨[], []⟩ (by intro n hn; cases hn)

theorem hierarchyState_closure (rows : List HRow) (internal : List String) :
    ∀ e ∈ (hierarchyState rows internal).childrenMap, ∀ x ∈ e.2,
      ∃ n ∈ (hierarchyState rows internal).nodes, n.uri = x := by
  unfold hierarchyState
  exact foldl_preserve
    (P := fun st => ∀ e ∈ st.childrenMap, ∀ x ∈ e.2, ∃ n ∈ st.nodes, n.uri = x)
    (processRow internal) (class_data rows)
    (fun st r _ hP => processRow_closure hP) ⟨[], []⟩ (by intro e he; cases he)

theorem hierarchyState_edge {rows : List HRow} (internal : List String) {C P : String}
    {r₀ : HRow} (hr₀ : r₀ ∈ class_data rows) (hc₀ : r₀.classU = some C)
    (hp₀ : r₀.parentU = some P) (hPne : ¬(P = "")) (hPex : P ∉ EXCLUDED_CLASSES)
    (hPb : startsWithB P "_:" = false) :
    (∃ n ∈ (hierarchyState rows internal).nodes, n.uri = C) ∧
    (∀ n ∈ (hierarchyState rows internal).nodes, n.uri = C → P ∈ n.parentUris) ∧
    C ∈ childrenOf (hierarchyState rows internal).childrenMap P := by
  obtain ⟨hCne, hCb, hCex⟩ := class_data_valid hr₀ hc₀
  unfold hierarchyState
  apply foldl_establish
    (Q := fun st => (∃ n ∈ st.nodes, n.uri = C) ∧
      (∀ n ∈ st.nodes, n.uri = C → P ∈ n.parentUris) ∧
      C ∈ childrenOf st.childrenMap P)
    (processRow internal) (class_data rows) r₀ hr₀
  · -- the row itself establishes the property, from any prior state
    intro st
    have heq : processRow internal st r₀ =
        ⟨addParent (if st.nodes.any (fun n => n.uri = C) then st.nodes
            else st.nodes ++ [mkHierarchyNode internal C r₀]) C P,
          addChild st.childrenMap P C⟩ := by
      simp [processRow, hc₀, hp₀, hCne, hPne, hPex, hPb]
    rw [heq]
    refine ⟨?_, addParent_self, childrenOf_addChild_self _ _ _⟩
    apply exists_uri_addParent.mpr
    by_cases hany : st.nodes.any (fun n => n.uri = C) = true
    · rw [if_pos hany]
      rcases List.any_eq_true.mp hany with ⟨n, hn, hx⟩
      exact ⟨n, hn, of_decide_eq_true hx⟩
    · rw [if_neg hany]
      exact ⟨mkHierarchyNode internal C r₀,
        List.mem_append_right _ (List.mem_singleton.mpr rfl), rfl⟩
  · -- any other row preserves the property
    intro st r hr hQ
    obtain ⟨hEx, hAll, hCh⟩ := hQ
    rcases processRow_cases internal st r with heq | ⟨c, nodes1, hc, hce, hn1, hrest⟩
    · rw [heq]; exact ⟨hEx, hAll, hCh⟩
    · have hEx1 : ∃ n ∈ nodes1, n.uri = C := by
        rcases hn1 with ⟨rfl, -⟩ | ⟨rfl, -⟩
        · exact hEx
        · obtain ⟨n, hn, hx⟩ := hEx
          exact ⟨n, List.mem_append_left _ hn, hx⟩
      have hAll1 : ∀ n ∈ nodes1, n.uri = C → P ∈ n.parentUris := by
        rcases hn1 with ⟨rfl, -⟩ | ⟨rfl, hany⟩
        · exact hAll
        · intro n hn hu
          rcases List.mem_append.mp hn with hn | hn
          · exact hAll n hn hu
          · rcases List.mem_singleton.mp hn with rfl
            exfalso
            have hcC : c = C := hu
            obtain ⟨m, hm, hmu⟩ := hEx
            have : st.nodes.any (fun n => n.uri = c) = true :=
              List.any_eq_true.mpr ⟨m, hm, decide_eq_true (hcC ▸ hmu)⟩
            rw [this] at hany
            cases hany
      rcases hrest with heq | ⟨p, hp, hpe, hpex, hpb, heq⟩
      · rw [heq]; exact ⟨hEx1, hAll1, hCh⟩
      · rw [heq]
        exact ⟨exists_uri_addParent.mpr hEx1, addParent_pres_parent hAll1,
          childrenOf_addChild_mono hCh⟩

theorem hierarchyQuery_row (g : Graph) {A P : String}
    (hty : (⟨Term.iri A, Term.iri RDF_TYPE, Term.iri OWL_CLASS⟩ : Triple) ∈ g ∨
      (⟨Term.iri A, Term.iri RDF_TYPE, Term.iri RDFS_CLASS⟩ : Triple) ∈ g)
    (hsub : (⟨Term.iri A, Term.iri RDFS_SUBCLASS_OF, Term.iri P⟩ : Triple) ∈ g) :
    ∃ r ∈ hierarchyQuery g, r.classU = some A ∧ r.parentU = some P := by
  have hcls : Term.iri A ∈ dedupFirst ((g.filter (fun t => t.pred = Term.iri RDF_TYPE ∧
      (t.obj = Term.iri OWL_CLASS ∨ t.obj = Term.iri RDFS_CLASS))).map (fun t => t.subj)) := by
    apply mem_dedupFirst.mpr
    rcases hty with hty | hty
    · exact List.mem_map.mpr ⟨_, List.mem_filter.mpr ⟨hty, by simp⟩, rfl⟩
    · exact List.mem_map.mpr ⟨_, List.mem_filter.mpr ⟨hty, by simp⟩, rfl⟩
  obtain ⟨lab, hlab⟩ := optIter_exists (objectsOf g RDFS_LABEL (Term.iri A))
  obtain ⟨pfx, hpfx⟩ := optIter_exists (objectsOf g PREFIX_IRI (Term.iri A))
  obtain ⟨dep, hdep⟩ := optIter_exists (objectsOf g OWL_DEPRECATED (Term.iri A))
  have hpar : some (Term.iri P) ∈
      optIter ((objectsOf g RDFS_SUBCLASS_OF (Term.iri A)).filter Term.isIRI) := by
    apply some_mem_optIter
    apply List.mem_filter.mpr
    refine ⟨?_, rfl⟩
    exact List.mem_map.mpr ⟨_, List.mem_filter.mpr ⟨hsub, by simp⟩, rfl⟩
  refine ⟨{ classU := some (Term.iri A).render, labelU := lab.map Term.render,
            prefixIriU := pfx.map Term.render,
            parentU := (some (Term.iri P)).map Term.render,
            deprecatedU := dep.map Term.render }, ?_, rfl, rfl⟩
  simp only [hierarchyQuery]
  apply mem_dedupFirst.mpr
  apply List.mem_flatMap.mpr
  refine ⟨Term.iri A, hcls, ?_⟩
  apply List.mem_flatMap.mpr
  refine ⟨lab, hlab, ?_⟩
  apply List.mem_flatMap.mpr
  refine ⟨pfx, hpfx, ?_⟩
  apply List.mem_flatMap.mpr
  refine ⟨dep, hdep, ?_⟩
  exact List.mem_map.mpr ⟨some (Term.iri P), hpar, rfl⟩

theorem mem_processRows {rows : List HRow} {internal : List String} {sd : Bool}
    {n : HierarchyNode} (h : n ∈ processRows rows internal sd) :
    ∃ n₀ ∈ (hierarchyState rows internal).nodes,
      n.uri = n₀.uri ∧ n.parentUris = n₀.parentUris ∧
      n.isExternal = (n₀.isExternal &&
        !(has_internal_descendant (hierarchyState rows internal).childrenMap
            ((hierarchyState rows internal).nodes.map (fun m => m.uri))
            (isExternalNs internal) n₀.uri)) := by
  unfold processRows at h
  have h1 : n ∈ promoteNodes (hierarchyState rows internal) internal := by
    have hmem := (List.perm_insertionSort nodeLabelRel _).mem_iff.mp h
    cases sd
    · simp only [Bool.false_eq_true, if_false] at hmem
      exact List.mem_of_mem_filter hmem
    · simpa using hmem
  unfold promoteNodes at h1
  rcases List.mem_map.mp h1 with ⟨n₀, hn₀, rfl⟩
  refine ⟨n₀, hn₀, ?_⟩
  cases hext : n₀.isExternal
  · simp [hext]
  · cases hhid : has_internal_descendant (hierarchyState rows internal).childrenMap
        ((hierarchyState rows internal).nodes.map (fun m => m.uri))
        (isExternalNs internal) n₀.uri
    · simp [hext, hhid]
    · simp [hext, hhid]

/-! ### Soundness of the promotion DFS -/

/-- Number of keys not yet visited (the DFS termination measure). -/
def countNV (keys v : List String) : Nat :=
  (keys.filter (fun x => x ∉ v)).length

theorem filter_length_mono {α : Type _} {p q : α → Bool}
    (h : ∀ a, p a = true → q a = true) :
    ∀ l : List α, (l.filter p).length ≤ (l.filter q).length := by
  intro l
  induction l with
  | nil => exact Nat.le_refl _
  | cons a l ih =>
    rw [List.filter_cons, List.filter_cons]
    cases hp : p a
    · cases hq : q a
      · simp only [Bool.false_eq_true, if_false]
        exact ih
      · simp only [Bool.false_eq_true, if_false, if_true, List.length_cons]
        exact Nat.le_succ_of_le ih
    · rw [h a hp]
      simp only [if_true, List.length_cons]
      exact Nat.succ_le_succ ih

theorem countNV_mono {keys v v' : List String} (h : v ⊆ v') :
    countNV keys v' ≤ countNV keys v := by
  unfold countNV
  apply filter_length_mono
  intro a ha
  have ha' : a ∉ v' := of_decide_eq_true ha
  exact decide_eq_true (fun hav => ha' (h hav))

theorem countNV_lt {keys v : List String} {u : String} (hu : u ∈ keys) (hv : u ∉ v) :
    countNV keys (u :: v) < countNV keys v := by
  have hle : ∀ ks : List String, (ks.filter (fun x => x ∉ u :: v)).length ≤
      (ks.filter (fun x => x ∉ v)).length := by
    intro ks
    apply filter_length_mono
    intro a ha
    have ha' : a ∉ u :: v := of_decide_eq_true ha
    exact decide_eq_true (fun hav => ha' (List.mem_cons_of_mem _ hav))
  unfold countNV
  induction keys with
  | nil => cases hu
  | cons k keys ih =>
    rw [List.filter_cons, List.filter_cons]
    rcases List.mem_cons.mp hu with heq | hu'
    · subst heq
      rw [if_neg (by simp), if_pos (by simp [hv])]
      have := hle keys
      simp only [List.length_cons]
      omega
    · by_cases hk : k ∈ v
      · rw [if_neg (by simp [hk]), if_neg (by simp [hk])]
        exact ih hu'
      · by_cases hku : k = u
        · subst hku
          rw [if_neg (by simp), if_pos (by simp [hk])]
          have := hle keys
          simp only [List.length_cons]
          omega
        · rw [if_pos (by simp [hk, hku]), if_pos (by simp [hk])]
          simp only [List.length_cons]
          exact Nat.succ_lt_succ (ih hu')

/-- The DFS postcondition when the search returns `false`: the visited set
only grew, and every child (that is a node) of each newly visited node is
externally classified and itself visited. -/
def HidInv (cm : List (String × List String)) (keys : List String)
    (isExt : String → Bool) (v v' : List String) : Prop :=
  v ⊆ v' ∧ ∀ u ∈ v', u ∉ v → ∀ c ∈ childrenOf cm u, c ∈ keys →
    isExt c = true ∧ c ∈ v'

theorem hidInv_refl (cm : List (String × List String)) (keys : List String)
    (isExt : String → Bool) (v : List String) : HidInv cm keys isExt v v :=
  ⟨fun _ h => h, fun _ hu1 hu2 => absurd hu1 hu2⟩

theorem hidInv_trans {cm : List (String × List String)} {keys : List String}
    {isExt : String → Bool} {v v₁ v₂ : List String}
    (h1 : HidInv cm keys isExt v v₁) (h2 : HidInv cm keys isExt v₁ v₂) :
    HidInv cm keys isExt v v₂ := by
  refine ⟨fun x hx => h2.1 (h1.1 hx), ?_⟩
  intro u hu huv c hc hck
  by_cases hu1 : u ∈ v₁
  · obtain ⟨he, hm⟩ := h1.2 u hu1 huv c hc hck
    exact ⟨he, h2.1 hm⟩
  · exact h2.2 u hu hu1 c hc hck

theorem hidFold_sound {cm : List (String × List String)} {keys : List String}
    {isExt : String → Bool} (fuel : Nat)
    (IH : ∀ uri v out, uri ∈ keys → countNV keys v < fuel →
      hidGo cm keys isExt fuel uri v = (false, out) →
      uri ∈ out ∧ HidInv cm keys isExt v out) :
    ∀ (cs : List String) (v out : List String), countNV keys v < fuel →
      hidFold keys isExt (hidGo cm keys isExt fuel) cs v = (false, out) →
      HidInv cm keys isExt v out ∧ ∀ c ∈ cs, c ∈ keys → isExt c = true ∧ c ∈ out := by
  intro cs
  induction cs with
  | nil =>
    intro v out _ h
    injection h with h1 h2
    subst h2
    exact ⟨hidInv_refl _ _ _ _, fun c hc => absurd hc (List.not_mem_nil c)⟩
  | cons c cs ih =>
    intro v out hfuel h
    unfold hidFold at h
    by_cases hck : c ∈ keys
    · rw [if_pos hck] at h
      cases hext : isExt c with
      | false =>
        rw [if_pos hext] at h
        injection h with h1
        cases h1
      | true =>
        rw [if_neg (by simp [hext])] at h
        cases hgo : hidGo cm keys isExt fuel c v with
        | mk b v₁ =>
          rw [hgo] at h
          cases b with
          | true => injection h with h1; cases h1
          | false =>
            simp only at h
            obtain ⟨hcv₁, hinv1⟩ := IH c v v₁ hck hfuel hgo
            have hfuel1 : countNV keys v₁ < fuel :=
              Nat.lt_of_le_of_lt (countNV_mono hinv1.1) hfuel
            obtain ⟨hinv2, hrest⟩ := ih v₁ out hfuel1 h
            refine ⟨hidInv_trans hinv1 hinv2, ?_⟩
            intro d hd hdk
            rcases List.mem_cons.mp hd with rfl | hd'
            · exact ⟨hext, hinv2.1 hcv₁⟩
            · exact hrest d hd' hdk
    · rw [if_neg hck] at h
      obtain ⟨hinv, hrest⟩ := ih v out hfuel h
      refine ⟨hinv, ?_⟩
      intro d hd hdk
      rcases List.mem_cons.mp hd with rfl | hd'
      · exact absurd hdk hck
      · exact hrest d hd' hdk

theorem hidGo_sound {cm : List (String × List String)} {keys : List String}
    {isExt : String → Bool} :
    ∀ (fuel : Nat) (uri : String) (v out : List String), uri ∈ keys →
      countNV keys v < fuel → hidGo cm keys isExt fuel uri v = (false, out) →
      uri ∈ out ∧ HidInv cm keys isExt v out := by
  intro fuel
  induction fuel with
  | zero => intro uri v out _ hf; exact absurd hf (Nat.not_lt_zero _)
  | succ n ihn =>
    intro uri v out hk hf h
    unfold hidGo at h
    by_cases hv : uri ∈ v
    · rw [if_pos hv] at h
      injection h with h1 h2
      subst h2
      exact ⟨hv, hidInv_refl _ _ _ _⟩
    · rw [if_neg hv] at h
      have hf1 : countNV keys (uri :: v) < n := by
        have hlt := countNV_lt hk hv
        omega
      obtain ⟨hinv, -⟩ := hidFold_sound n ihn (childrenOf cm uri) (uri :: v) out hf1 h
      have huri : uri ∈ out := hinv.1 (List.mem_cons_self _ _)
      refine ⟨huri, fun x hx => hinv.1 (List.mem_cons_of_mem _ hx), ?_⟩
      intro u hu huv c hc hck
      by_cases huu : u = uri
      · subst huu
        obtain ⟨hinvA, hchildren⟩ :=
          hidFold_sound n ihn (childrenOf cm u) (u :: v) out hf1 h
        exact hchildren c hc hck
      · exact hinv.2 u hu (by simp [huv, huu]) c hc hck

theorem countNV_nil (keys : List String) : countNV keys [] = keys.length := by
  unfold countNV
  induction keys with
  | nil => rfl
  | cons k keys ih => simp [List.filter_cons, ih]

theorem reach_external {cm : List (String × List String)} {keys : List String}
    {isExt : String → Bool} {v' : List String}
    (closure : ∀ a, ∀ c ∈ childrenOf cm a, c ∈ keys)
    (hA : ∀ u ∈ v', ∀ c ∈ childrenOf cm u, c ∈ keys → isExt c = true ∧ c ∈ v') :
    ∀ a d, Reaches cm a d → a ∈ v' → isExt d = true := by
  intro a d hr
  induction hr with
  | direct hb =>
    intro ha
    exact (hA _ ha _ hb (closure _ _ hb)).1
  | step hc hr ih =>
    intro ha
    exact ih ((hA _ ha _ hc (closure _ _ hc)).2)

/-- If `has_internal_descendant` says no, then every node reachable through
the children map from `uri` is externally classified. -/
theorem has_internal_descendant_sound {cm : List (String × List String)}
    {keys : List String} {isExt : String → Bool} {uri : String}
    (closure : ∀ a, ∀ c ∈ childrenOf cm a, c ∈ keys) (hk : uri ∈ keys)
    (h : has_internal_descendant cm keys isExt uri = false) :
    ∀ d, Reaches cm uri d → isExt d = true := by
  unfold has_internal_descendant at h
  cases hg : hidGo cm keys isExt (keys.length + 1) uri [] with
  | mk b out =>
    rw [hg] at h
    simp only at h
    subst h
    have hf : countNV keys [] < keys.length + 1 := by
      rw [countNV_nil]
      omega
    obtain ⟨huri, hinv⟩ := hidGo_sound (keys.length + 1) uri [] out hk hf hg
    have hA : ∀ u ∈ out, ∀ c ∈ childrenOf cm u, c ∈ keys →
        isExt c = true ∧ c ∈ out := by
      intro u hu c hc hck
      exact hinv.2 u hu (List.not_mem_nil u) c hc hck
    intro d hr
    exact reach_external closure hA uri d hr huri

theorem hierarchyState_children_keys (rows : List HRow) (internal : List String) :
    ∀ a, ∀ c ∈ childrenOf (hierarchyState rows internal).childrenMap a,
      c ∈ (hierarchyState rows internal).nodes.map (fun m => m.uri) := by
  intro a c hc
  unfold childrenOf at hc
  cases hl : List.lookup a (hierarchyState rows internal).childrenMap with
  | none => rw [hl] at hc; simp at hc
  | some v =>
    rw [hl] at hc
    obtain ⟨n, hn, hxu⟩ := hierarchyState_closure rows internal (a, v) (lookup_mem hl) c hc
    exact List.mem_map.mpr ⟨n, hn, hxu⟩

/-! ### Claim C7: no excluded or blank parents in the output -/

/-- Claim C7 (confirmed): no `HierarchyNode` returned by `buildHierarchy`
(`get_class_hierarchy`) carries an excluded-root URI or a blank node in its
`parent_uris`, whatever the source triples contain. -/
theorem c7_no_excluded_parents (g : Graph) (cfg : OntologyConfig) (n : HierarchyNode)
    (h : n ∈ get_class_hierarchy g cfg) :
    ∀ p ∈ n.parentUris, p ∉ EXCLUDED_CLASSES ∧ startsWithB p "_:" = false := by
  unfold get_class_hierarchy at h
  obtain ⟨n₀, hn₀, huri, hpar, hext⟩ := mem_processRows h
  rw [hpar]
  exact hierarchyState_parents_clean _ _ n₀ hn₀

/-- Claim C7 witness: a concrete output node's parent is neither excluded
nor blank. -/
theorem c7_witness :
    "http://ex7/P" ∉ EXCLUDED_CLASSES ∧ startsWithB "http://ex7/P" "_:" = false :=
  c7_no_excluded_parents c7Graph c7Config c7Node (by decide) "http://ex7/P" (by decide)

/-! ### Claim C10: internal-namespace nodes are never marked external -/

/-- Claim C10 (confirmed): every output node whose namespace is in the
internal-namespace set has `is_external = false` — the promotion pass only
ever changes the flag from `true` to `false`. -/
theorem c10_internal_never_external (g : Graph) (cfg : OntologyConfig)
    (n : HierarchyNode) (h : n ∈ get_class_hierarchy g cfg)
    (hin : extract_namespace n.uri ∈ internalNamespacesFor g cfg) :
    n.isExternal = false := by
  unfold get_class_hierarchy at h
  obtain ⟨n₀, hn₀, huri, hpar, hext⟩ := mem_processRows h
  have h0 : n₀.isExternal = isExternalNs (internalNamespacesFor g cfg) n₀.uri :=
    hierarchyState_isExternal _ _ n₀ hn₀
  have hfalse : n₀.isExternal = false := by
    rw [h0]
    unfold isExternalNs
    rw [← huri]
    simp [hin]
  rw [hext, hfalse]
  simp

/-- Claim C10 witness. -/
theorem c10_witness : c10Node.isExternal = false :=
  c10_internal_never_external c10Graph c10Config c10Node (by decide) (by decide)

/-! ### Claim C5: ancestor promotion -/

/-- Claim C5 (confirmed): (a) an output node keeps `is_external = true`
only if no descendant reachable through the children map has an internal
namespace; (b) in particular, for a direct edge `Child subClassOf Parent`
with `Child` internal and `Parent` external, the output node for `Parent`
has `is_external = false`. -/
theorem c5_ancestor_promotion :
    (∀ (g : Graph) (cfg : OntologyConfig) (n : HierarchyNode),
      n ∈ get_class_hierarchy g cfg → n.isExternal = true →
      ∀ d, Reaches (childrenMapFor g cfg) n.uri d →
        extract_namespace d ∉ internalNamespacesFor g cfg) ∧
    (∀ (g : Graph) (cfg : OntologyConfig) (child parent : String) (n : HierarchyNode),
      ((⟨Term.iri child, Term.iri RDF_TYPE, Term.iri OWL_CLASS⟩ : Triple) ∈ g ∨
        (⟨Term.iri child, Term.iri RDF_TYPE, Term.iri RDFS_CLASS⟩ : Triple) ∈ g) →
      (⟨Term.iri child, Term.iri RDFS_SUBCLASS_OF, Term.iri parent⟩ : Triple) ∈ g →
      ¬(child = "") → startsWithB child "_:" = false → child ∉ EXCLUDED_CLASSES →
      ¬(parent = "") → startsWithB parent "_:" = false → parent ∉ EXCLUDED_CLASSES →
      extract_namespace child ∈ internalNamespacesFor g cfg →
      extract_namespace parent ∉ internalNamespacesFor g cfg →
      n ∈ get_class_hierarchy g cfg → n.uri = parent → n.isExternal = false) := by
  have part_a : ∀ (g : Graph) (cfg : OntologyConfig) (n : HierarchyNode),
      n ∈ get_class_hierarchy g cfg → n.isExternal = true →
      ∀ d, Reaches (childrenMapFor g cfg) n.uri d →
        extract_namespace d ∉ internalNamespacesFor g cfg := by
    intro g cfg n h hext d hr
    unfold get_class_hierarchy at h
    obtain ⟨n₀, hn₀, huri, hpar, hx⟩ := mem_processRows h
    rw [hext] at hx
    obtain ⟨hx1, hx2⟩ := Bool.and_eq_true_iff.mp hx.symm
    have hhid : has_internal_descendant
        (hierarchyState (hierarchyQuery g) (internalNamespacesFor g cfg)).childrenMap
        ((hierarchyState (hierarchyQuery g) (internalNamespacesFor g cfg)).nodes.map
          (fun m => m.uri))
        (isExternalNs (internalNamespacesFor g cfg)) n₀.uri = false := by
      cases hb : has_internal_descendant
          (hierarchyState (hierarchyQuery g) (internalNamespacesFor g cfg)).childrenMap
          ((hierarchyState (hierarchyQuery g) (internalNamespacesFor g cfg)).nodes.map
            (fun m => m.uri))
          (isExternalNs (internalNamespacesFor g cfg)) n₀.uri
      · rfl
      · rw [hb] at hx2
        simp at hx2
    have hclosure := hierarchyState_children_keys (hierarchyQuery g)
      (internalNamespacesFor g cfg)
    have hkey : n₀.uri ∈ (hierarchyState (hierarchyQuery g)
        (internalNamespacesFor g cfg)).nodes.map (fun m => m.uri) :=
      List.mem_map.mpr ⟨n₀, hn₀, rfl⟩
    have hsound := has_internal_descendant_sound hclosure hkey hhid
    unfold childrenMapFor at hr
    rw [huri] at hr
    exact of_decide_eq_true (hsound d hr)
  constructor
  · exact part_a
  · intro g cfg child parent n hty hsub hc1 hc2 hc3 hp1 hp2 hp3 hint hpext h hu
    cases hextval : n.isExternal with
    | false => rfl
    | true =>
      exfalso
      obtain ⟨r₀, hr₀, hcU, hpU⟩ := hierarchyQuery_row g hty hsub
      have hrcd : r₀ ∈ class_data (hierarchyQuery g) :=
        mem_class_data_of hr₀ hcU hc1 hc2 hc3
      obtain ⟨-, -, hedge⟩ := hierarchyState_edge
        (internalNamespacesFor g cfg) hrcd hcU hpU hp1 hp3 hp2
      have hreach : Reaches (childrenMapFor g cfg) n.uri child := by
        rw [hu]
        exact Reaches.direct (show child ∈ childrenOf (childrenMapFor g cfg) parent by
          unfold childrenMapFor
          exact hedge)
      exact part_a g cfg n h hextval child hreach hint

/-- Claim C5 witness: the external parent of an internal child ends up with
`is_external = false`. -/
theorem c5_witness : c5Node.isExternal = false :=
  c5_ancestor_promotion.2 c5Graph c5Config "http://int/C" "http://ext/P" c5Node
    (Or.inl (by decide)) (by decide) (by decide) (by decide) (by decide) (by decide)
    (by decide) (by decide) (by decide) (by decide) (by decide) (by decide)

/-! ### Claim C1 (amended): self-loops are kept -/

/-- Claim C1 amended: a class `A` declared with a self-referential edge
`A subClassOf A` (with `A` neither empty, blank, nor an excluded root) DOES
appear in its own `parent_uris` in the `buildHierarchy` output — the engine
drops excluded-root and blank parents but keeps self-loops. -/
theorem c1_amended (g : Graph) (cfg : OntologyConfig) (A : String) (n : HierarchyNode)
    (hty : (⟨Term.iri A, Term.iri RDF_TYPE, Term.iri OWL_CLASS⟩ : Triple) ∈ g ∨
      (⟨Term.iri A, Term.iri RDF_TYPE, Term.iri RDFS_CLASS⟩ : Triple) ∈ g)
    (hsub : (⟨Term.iri A, Term.iri RDFS_SUBCLASS_OF, Term.iri A⟩ : Triple) ∈ g)
    (h1 : ¬(A = "")) (h2 : startsWithB A "_:" = false) (h3 : A ∉ EXCLUDED_CLASSES)
    (h : n ∈ get_class_hierarchy g cfg) (hu : n.uri = A) :
    A ∈ n.parentUris := by
  obtain ⟨r₀, hr₀, hcU, hpU⟩ := hierarchyQuery_row g hty hsub
  have hrcd : r₀ ∈ class_data (hierarchyQuery g) := mem_class_data_of hr₀ hcU h1 h2 h3
  obtain ⟨-, hall, -⟩ := hierarchyState_edge
    (internalNamespacesFor g cfg) hrcd hcU hpU h1 h3 h2
  unfold get_class_hierarchy at h
  obtain ⟨n₀, hn₀, huri, hpar, -⟩ := mem_processRows h
  rw [hpar]
  exact hall n₀ hn₀ (by rw [← huri]; exact hu)

/-- Claim C1 amended witness. -/
theorem c1_amended_witness : "http://ex/A" ∈ c1Node.parentUris :=
  c1_amended c1Graph c1Config "http://ex/A" c1Node (Or.inl (by decide)) (by decide)
    (by decide) (by decide) (by decide) (by decide) (by decide)

/-! ### Claim C4 (amended): only the list head is resolved -/

theorem mem_domainRows {g : Graph} {c : String} {r : DomRow} (h : r ∈ domainRows g c) :
    ∃ t ∈ subjectsOf g RDFS_DOMAIN (Term.iri c), r.prop = t.render ∧
      (r.rangeU = none ∨ ∃ rt ∈ objectsOf g RDFS_RANGE t, r.rangeU = some rt.render) := by
  unfold domainRows at h
  have h' := mem_dedupFirst.mp h
  rcases List.mem_flatMap.mp h' with ⟨t, ht, hrest⟩
  rcases List.mem_flatMap.mp hrest with ⟨pl, hpl, hrest2⟩
  rcases List.mem_flatMap.mp hrest2 with ⟨ty, hty, hrest3⟩
  rcases List.mem_map.mp hrest3 with ⟨rg, hrg, rfl⟩
  refine ⟨t, mem_dedupFirst.mp ht, rfl, ?_⟩
  unfold rangeOptions at hrg
  cases hobj : objectsOf g RDFS_RANGE t with
  | nil =>
    rw [hobj] at hrg
    obtain hrgeq := List.mem_singleton.mp hrg
    rw [hrgeq]
    exact Or.inl rfl
  | cons r0 rs =>
    rw [hobj] at hrg
    rcases List.mem_flatMap.mp hrg with ⟨rt, hrt, hmem⟩
    rcases List.mem_map.mp hmem with ⟨rl, hrl, hpair⟩
    refine Or.inr ⟨rt, hrt, ?_⟩
    rw [← hpair]

theorem mem_addRange {props : List PropertyInfo} {p ru rl : String} {pi : PropertyInfo}
    (h : pi ∈ addRange props p ru rl) :
    ∃ pi₀ ∈ props, pi.uri = pi₀.uri ∧
      (pi = pi₀ ∨ (pi₀.uri = p ∧ pi.ranges = pi₀.ranges ++ [(ru, rl)])) := by
  rcases List.mem_map.mp h with ⟨pi₀, hpi₀, rfl⟩
  refine ⟨pi₀, hpi₀, ?_⟩
  by_cases hup : pi₀.uri = p
  · simp only [if_pos hup]
    split_ifs with hin
    · simp
    · simp [hup]
  · simp only [if_neg hup]
    simp

theorem updProps_cases (c : String) (props : List PropertyInfo) (r : DomRow) :
    updProps c props r = props ∨
    ∃ props1,
      ((props1 = props ∧ props.any (fun pi => pi.uri = r.prop) = true) ∨
        (props1 = props ++ [mkPropInfo c r] ∧
          props.any (fun pi => pi.uri = r.prop) = false)) ∧
      (updProps c props r = props1 ∨
        ∃ ru, r.rangeU = some ru ∧ ¬(ru = "") ∧ startsWithB ru "_:" = false ∧
          updProps c props r =
            addRange props1 r.prop ru (pyOr r.rangeLabel (extract_local_name ru))) := by
  by_cases hpe : r.prop = ""
  · exact Or.inl (by simp [updProps, hpe])
  · right
    cases hany : props.any (fun pi => pi.uri = r.prop) with
    | true =>
      refine ⟨props, Or.inl ⟨rfl, by simp [hany]⟩, ?_⟩
      cases hru : r.rangeU with
      | none => exact Or.inl (by simp [updProps, hpe, hany, hru])
      | some ru =>
        by_cases hcond : ¬(ru = "") ∧ startsWithB ru "_:" = false
        · exact Or.inr ⟨ru, rfl, hcond.1, hcond.2,
            by simp [updProps, hpe, hany, hru, hcond]⟩
        · exact Or.inl (by simp [updProps, hpe, hany, hru, hcond])
    | false =>
      refine ⟨props ++ [mkPropInfo c r], Or.inr ⟨rfl, by simp [hany]⟩, ?_⟩
      cases hru : r.rangeU with
      | none => exact Or.inl (by simp [updProps, hpe, hany, hru])
      | some ru =>
        by_cases hcond : ¬(ru = "") ∧ startsWithB ru "_:" = false
        · exact Or.inr ⟨ru, rfl, hcond.1, hcond.2,
            by simp [updProps, hpe, hany, hru, hcond]⟩
        · exact Or.inl (by simp [updProps, hpe, hany, hru, hcond])

theorem foldl_updProps_ranges_nil {c p : String} {rows : List DomRow}
    (hrows : ∀ r ∈ rows, r.prop = p → ∀ ru, r.rangeU = some ru →
      ru = "" ∨ startsWithB ru "_:" = true) :
    ∀ pi ∈ rows.foldl (updProps c) [], pi.uri = p → pi.ranges = [] := by
  apply foldl_preserve (P := fun props => ∀ pi ∈ props, pi.uri = p → pi.ranges = [])
    (updProps c) rows ?_ [] (by intro pi h; cases h)
  intro props r hr hP
  rcases updProps_cases c props r with heq | ⟨props1, hps, hrest⟩
  · rw [heq]; exact hP
  · have hP1 : ∀ pi ∈ props1, pi.uri = p → pi.ranges = [] := by
      rcases hps with ⟨rfl, -⟩ | ⟨rfl, -⟩
      · exact hP
      · intro pi hpi hpu
        rcases List.mem_append.mp hpi with hpi | hpi
        · exact hP pi hpi hpu
        · obtain heq2 := List.mem_singleton.mp hpi
          rw [heq2]
          rfl
    rcases hrest with heq | ⟨ru, hru, hne, hsw, heq⟩
    · rw [heq]; exact hP1
    · rw [heq]
      intro pi hpi hpu
      obtain ⟨pi₀, hpi₀, huri, hcase⟩ := mem_addRange hpi
      rcases hcase with heq2 | ⟨hup, -⟩
      · rw [heq2]
        exact hP1 pi₀ hpi₀ (by rw [← huri]; exact hpu)
      · exfalso
        have hrp : r.prop = p := by rw [← hup, ← huri]; exact hpu
        rcases hrows r hr hrp ru hru with h0 | h0
        · exact hne h0
        · rw [h0] at hsw
          cases hsw

theorem mem_resolvePass {g : Graph} {props : List PropertyInfo} {pi : PropertyInfo}
    (h : pi ∈ resolvePass g props) :
    ∃ pi₀ ∈ props, pi.uri = pi₀.uri ∧
      ((pi₀.ranges = [] ∧ pi.ranges = resolve_blank_node_range g pi₀.uri) ∨
        (¬(pi₀.ranges = []) ∧ pi = pi₀)) := by
  unfold resolvePass at h
  rcases List.mem_map.mp h with ⟨pi₀, hpi₀, rfl⟩
  refine ⟨pi₀, hpi₀, ?_⟩
  split_ifs with hemp
  · have hnil : pi₀.ranges = [] := by
      cases hranges : pi₀.ranges with
      | nil => rfl
      | cons a l => rw [hranges] at hemp; simp at hemp
    refine ⟨rfl, Or.inl ⟨hnil, ?_⟩⟩
    simp [hnil]
  · exact ⟨rfl, Or.inr ⟨fun hnil => hemp (by rw [hnil]; rfl), rfl⟩⟩

/-- Claim C4 amended: for a property in `domain_of` all of whose declared
ranges render as blank (or empty) — so zero concrete ranges survive — the
synthetic ranges in the output are exactly `_resolve_blank_node_range`,
i.e. the non-blank `rdf:first` members of the `owl:oneOf` lists reached
from each range, NOT every member of those lists (see counterexample). -/
theorem c4_amended (g : Graph) (c : String) (pi : PropertyInfo)
    (hmem : pi ∈ (get_class_properties g c).domain_of)
    (H : ∀ t ∈ subjectsOf g RDFS_DOMAIN (Term.iri c), t.render = pi.uri →
      ∀ rt ∈ objectsOf g RDFS_RANGE t, rt.render = "" ∨ startsWithB rt.render "_:" = true) :
    pi.ranges = resolve_blank_node_range g pi.uri := by
  have h1 : pi ∈ get_properties_for_class g c :=
    (List.perm_insertionSort propLabelRel (get_properties_for_class g c)).mem_iff.mp hmem
  have hrows : ∀ r ∈ domainRows g c, r.prop = pi.uri → ∀ ru, r.rangeU = some ru →
      ru = "" ∨ startsWithB ru "_:" = true := by
    intro r hr hrp ru hru
    obtain ⟨t, ht, hpt, hcase⟩ := mem_domainRows hr
    rcases hcase with hnone | ⟨rt, hrt, hsome⟩
    · rw [hnone] at hru; cases hru
    · rw [hsome] at hru
      injection hru with hru
      rw [← hru]
      exact H t ht (by rw [← hpt]; exact hrp) rt hrt
  unfold get_properties_for_class at h1
  obtain ⟨pi₀, hpi₀, huri, hres⟩ := mem_resolvePass h1
  have hzero : pi₀.ranges = [] :=
    foldl_updProps_ranges_nil hrows pi₀ hpi₀ huri.symm
  rcases hres with ⟨-, hr⟩ | ⟨hne, -⟩
  · rw [huri]
    exact hr
  · exact absurd hzero hne

/-- Claim C4 amended witness: concrete evaluation on the two-element list
graph. -/
theorem c4_amended_witness :
    c4Prop.ranges = resolve_blank_node_range c4Graph "http://ex/P" :=
  c4_amended c4Graph "http://ex/C" c4Prop (by decide) (by decide)
